import Mathlib

/-!
linkwatch: probe executor, URL canonicaliser and SQLite storage.

A shallow embedding of the Go sources

* `internal/checker/checker.go`  (`checkOne`, `isRetryableError`),
* `internal/api/handler.go`      (`canonicalizeURL`),
* `internal/storage/storage.go`  (`CreateTarget`, `getTarget`, `ListTargets`),

followed by the properties established about them.

Conventions.  A Go `string` is a byte string; it is represented by the list of
its bytes, each byte written as the `Char` with the same code (`Str`).  For
ASCII text this is the usual reading of a string literal.  Go `int` values are
`Int`, durations are natural numbers of milliseconds, and a `time.Time` is the
natural number of nanoseconds since Go's zero time (January 1, year 1,
00:00:00 UTC), so that the zero `time.Time` is 0.
-/

set_option autoImplicit false

/-- A Go string, byte by byte. -/
abbrev Str := List Char

/-! ## The part of package `strings` used by the sources -/

namespace strings

/-- Go `strings.HasPrefix`. -/
def HasPrefix : Str → Str → Bool
  | _, [] => true
  | [], _ :: _ => false
  | c :: s, d :: p => c == d && HasPrefix s p

/-- Go `strings.HasSuffix`. -/
def HasSuffix (s suffix : Str) : Bool :=
  HasPrefix s.reverse suffix.reverse

/-- Go `strings.Contains`. -/
def Contains : Str → Str → Bool
  | [], sub => sub.isEmpty
  | c :: s, sub => HasPrefix (c :: s) sub || Contains s sub

/-- Byte-wise lexicographic `a < b`: the order of Go strings and of SQLite
text under the default `BINARY` collation. -/
def Less : Str → Str → Bool
  | _, [] => false
  | [], _ :: _ => true
  | a :: as, b :: bs => decide (a.toNat < b.toNat) || (a == b && Less as bs)

/-- Go `strings.Count` for a one-byte separator. -/
def Count (s : Str) (sep : Char) : Nat :=
  (s.filter fun c => c == sep).length

/-- Go `strings.IndexByte`: position of the first `b` in `s`. -/
def IndexByte : Str → Char → Option Nat
  | [], _ => none
  | c :: s, b => if c == b then some 0 else (IndexByte s b).map fun i => i + 1

/-- Go `strings.LastIndexByte`: position of the last `b` in `s`. -/
def LastIndexByte : Str → Char → Option Nat
  | [], _ => none
  | c :: s, b =>
    match LastIndexByte s b with
    | some i => some (i + 1)
    | none => if c == b then some 0 else none

/-- Go `strings.Index`: position of the first occurrence of `sub` in `s`. -/
def Index : Str → Str → Option Nat
  | [], sub => if sub.isEmpty then some 0 else none
  | c :: s, sub =>
    if HasPrefix (c :: s) sub then some 0 else (Index s sub).map fun i => i + 1

/-- Go `strings.Cut` for a one-byte separator: the text before and after the
first `sep`, and whether `sep` was found. -/
def Cut : Str → Char → Str × Str × Bool
  | [], _ => ([], [], false)
  | c :: s, sep =>
    if c == sep then ([], s, true)
    else ((c :: (Cut s sep).1), (Cut s sep).2.1, (Cut s sep).2.2)

/-- Go `strings.Split` for a one-byte separator. -/
def Split : Str → Char → List Str
  | [], _ => [[]]
  | c :: s, sep =>
    if c == sep then [] :: Split s sep
    else
      match Split s sep with
      | [] => [[c]]
      | part :: parts => (c :: part) :: parts

/-- Go `strings.TrimRight` for a one-byte cutset: every trailing `b` removed. -/
def TrimRight (s : Str) (b : Char) : Str :=
  (s.reverse.dropWhile fun c => c == b).reverse

/-- Go `strings.TrimSuffix` for a one-byte suffix: one trailing `b` removed,
when there is one. -/
def TrimSuffix (s : Str) (b : Char) : Str :=
  if HasSuffix s [b] then s.dropLast else s

/-- Lower-casing of one byte: `A`..`Z` are shifted to `a`..`z`, every other
byte is kept.  This is `unicode.ToLower` on ASCII; the Unicode case tables
for runes outside ASCII are not modelled. -/
def lowerByte (c : Char) : Char :=
  if 65 ≤ c.toNat ∧ c.toNat ≤ 90 then Char.ofNat (c.toNat + 32) else c

/-- Go `strings.ToLower` (exact on ASCII text, see `lowerByte`). -/
def ToLower (s : Str) : Str :=
  s.map lowerByte

end strings

/-! ## The part of package `net/url` used by `canonicalizeURL`

`url.Parse`, `(*URL).Port` and `(*URL).String` of the Go standard library
(as of Go 1.19 to 1.22), transcribed function by function. -/

namespace url

/-- The errors `url.Parse` can return, one constructor per message; the last
one is the `errors.New("invalid scheme")` of `canonicalizeURL`. -/
inductive Error where
  | invalidControlCharacter
  | emptyURL
  | missingProtocolScheme
  | invalidURIForRequest
  | firstPathSegmentColon
  | escapeError (s : Str)
  | invalidHostError (s : Str)
  | missingBracket
  | invalidPort (s : Str)
  | invalidUserinfo
  | invalidScheme
  deriving DecidableEq, Repr

/-- Go `url.encoding`. -/
inductive encoding where
  | encodePath
  | encodePathSegment
  | encodeHost
  | encodeZone
  | encodeUserPassword
  | encodeQueryComponent
  | encodeFragment
  deriving DecidableEq, Repr

open encoding

/-- Go `url.Userinfo`. -/
structure Userinfo where
  username : Str
  password : Str
  passwordSet : Bool
  deriving DecidableEq, Repr

/-- Go `url.URL`; `User = none` is the nil pointer. -/
structure URL where
  Scheme : Str := []
  Opaque : Str := []
  User : Option Userinfo := none
  Host : Str := []
  Path : Str := []
  RawPath : Str := []
  OmitHost : Bool := false
  ForceQuery : Bool := false
  RawQuery : Str := []
  Fragment : Str := []
  RawFragment : Str := []
  deriving DecidableEq, Repr

/-- The apostrophe byte. -/
def apostrophe : Char := Char.ofNat 39

/-- The double-quote byte. -/
def dquote : Char := Char.ofNat 34

/-- Go `ishex`. -/
def ishex (c : Char) : Bool :=
  ('0' ≤ c && c ≤ '9') || ('a' ≤ c && c ≤ 'f') || ('A' ≤ c && c ≤ 'F')

/-- Go `unhex`. -/
def unhex (c : Char) : Nat :=
  if '0' ≤ c ∧ c ≤ '9' then c.toNat - 48
  else if 'a' ≤ c ∧ c ≤ 'f' then c.toNat - 97 + 10
  else if 'A' ≤ c ∧ c ≤ 'F' then c.toNat - 65 + 10
  else 0

/-- Go `shouldEscape`. -/
def shouldEscape (c : Char) (mode : encoding) : Bool :=
  if ('a' ≤ c && c ≤ 'z') || ('A' ≤ c && c ≤ 'Z') || ('0' ≤ c && c ≤ '9') then false
  else if (mode == encodeHost || mode == encodeZone) &&
      ['!', '$', '&', apostrophe, '(', ')', '*', '+', ',', ';', '=', ':', '[', ']', '<', '>',
        dquote].contains c then false
  else if ['-', '_', '.', '~'].contains c then false
  else if ['$', '&', '+', ',', '/', ':', ';', '=', '?', '@'].contains c &&
      mode != encodeHost && mode != encodeZone then
    match mode with
    | encodePath => c == '?'
    | encodePathSegment => c == '/' || c == ';' || c == ',' || c == '?'
    | encodeUserPassword => c == '@' || c == '/' || c == '?' || c == ':'
    | encodeQueryComponent => true
    | encodeFragment => false
    | _ => true
  else if mode == encodeFragment && ['!', '(', ')', '*'].contains c then false
  else true

/-- First loop of Go `unescape`: checks that every `%` starts a well-formed
escape and, in host and zone mode, that no byte needs escaping. -/
def unescapeCheck (mode : encoding) : Str → Except Error Unit
  | [] => pure ()
  | c :: rest =>
    if c == '%' then
      match rest with
      | a :: b :: rest2 =>
        if !ishex a || !ishex b then throw (Error.escapeError [c, a, b])
        else if mode == encodeHost && decide (unhex a < 8) && [c, a, b] != "%25".toList then
          throw (Error.escapeError [c, a, b])
        else if mode == encodeZone && [c, a, b] != "%25".toList &&
            Char.ofNat (unhex a * 16 + unhex b) != ' ' &&
            shouldEscape (Char.ofNat (unhex a * 16 + unhex b)) encodeHost then
          throw (Error.escapeError [c, a, b])
        else unescapeCheck mode rest2
      | _ => throw (Error.escapeError (c :: rest))
    else if (mode == encodeHost || mode == encodeZone) && decide (c.toNat < 128) &&
        shouldEscape c encodeHost then
      throw (Error.invalidHostError [c])
    else unescapeCheck mode rest

/-- Second loop of Go `unescape`: replaces every `%XX` by the byte it denotes
(and `+` by a space in query-component mode). -/
def unescapeDecode (mode : encoding) : Str → Str
  | [] => []
  | c :: rest =>
    if c == '%' then
      match rest with
      | a :: b :: rest2 => Char.ofNat (unhex a * 16 + unhex b) :: unescapeDecode mode rest2
      | _ => []
    else if c == '+' && mode == encodeQueryComponent then ' ' :: unescapeDecode mode rest
    else c :: unescapeDecode mode rest

/-- Go `unescape`. -/
def unescape (s : Str) (mode : encoding) : Except Error Str :=
  match unescapeCheck mode s with
  | Except.error e => Except.error e
  | Except.ok _ => Except.ok (unescapeDecode mode s)

/-- The digit table `upperhex` of Go, indexed. -/
def upperhex (n : Nat) : Char :=
  ("0123456789ABCDEF".toList).getD n '0'

/-- Go `escape`. -/
def escape (s : Str) (mode : encoding) : Str :=
  s.flatMap fun c =>
    if shouldEscape c mode then
      if c == ' ' && mode == encodeQueryComponent then ['+']
      else ['%', upperhex (c.toNat / 16 % 16), upperhex (c.toNat % 16)]
    else [c]

/-- Go `validEncoded`. -/
def validEncoded (s : Str) (mode : encoding) : Bool :=
  s.all fun c =>
    if ['!', '$', '&', apostrophe, '(', ')', '*', '+', ',', ';', '=', ':', '@'].contains c then true
    else if c == '[' || c == ']' then true
    else if c == '%' then true
    else !shouldEscape c mode

/-- Go `stringContainsCTLByte`. -/
def stringContainsCTLByte (s : Str) : Bool :=
  s.any fun b => decide (b.toNat < 32) || b.toNat == 127

/-- The loop of Go `getScheme`; `i` is the index of the head of the remaining
text within `rawURL`. -/
def getSchemeLoop (rawURL : Str) : Nat → Str → Except Error (Str × Str)
  | _, [] => pure ([], rawURL)
  | i, c :: rest =>
    if ('a' ≤ c && c ≤ 'z') || ('A' ≤ c && c ≤ 'Z') then getSchemeLoop rawURL (i + 1) rest
    else if ('0' ≤ c && c ≤ '9') || c == '+' || c == '-' || c == '.' then
      if i == 0 then pure ([], rawURL) else getSchemeLoop rawURL (i + 1) rest
    else if c == ':' then
      if i == 0 then throw Error.missingProtocolScheme else pure (rawURL.take i, rest)
    else pure ([], rawURL)

/-- Go `getScheme`: the scheme and the text after its colon. -/
def getScheme (rawURL : Str) : Except Error (Str × Str) :=
  getSchemeLoop rawURL 0 rawURL

/-- Go `validOptionalPort`. -/
def validOptionalPort (port : Str) : Bool :=
  match port with
  | [] => true
  | c :: digits => c == ':' && digits.all fun b => '0' ≤ b && b ≤ '9'

/-- Go `validUserinfo`. -/
def validUserinfo (s : Str) : Bool :=
  s.all fun r =>
    ('A' ≤ r && r ≤ 'Z') || ('a' ≤ r && r ≤ 'z') || ('0' ≤ r && r ≤ '9') ||
    ['-', '.', '_', ':', '~', '!', '$', '&', apostrophe, '(', ')', '*', '+', ',', ';', '=', '%',
      '@'].contains r

/-- Go `parseHost`. -/
def parseHost (host : Str) : Except Error Str :=
  if strings.HasPrefix host ['['] then
    match strings.LastIndexByte host ']' with
    | none => throw Error.missingBracket
    | some i =>
      let colonPort := host.drop (i + 1)
      if !validOptionalPort colonPort then throw (Error.invalidPort colonPort)
      else
        match strings.Index (host.take i) "%25".toList with
        | some zone => do
          let host1 ← unescape (host.take zone) encodeHost
          let host2 ← unescape ((host.take i).drop zone) encodeZone
          let host3 ← unescape (host.drop i) encodeHost
          pure (host1 ++ host2 ++ host3)
        | none => unescape host encodeHost
  else
    match strings.LastIndexByte host ':' with
    | some i =>
      let colonPort := host.drop i
      if !validOptionalPort colonPort then throw (Error.invalidPort colonPort)
      else unescape host encodeHost
    | none => unescape host encodeHost

/-- The userinfo part of Go `parseAuthority`. -/
def parseUserinfo (userinfo : Str) : Except Error Userinfo :=
  if !validUserinfo userinfo then throw Error.invalidUserinfo
  else if !strings.Contains userinfo [':'] then do
    let username ← unescape userinfo encodeUserPassword
    pure { username := username, password := [], passwordSet := false }
  else do
    let username ← unescape (strings.Cut userinfo ':').1 encodeUserPassword
    let password ← unescape (strings.Cut userinfo ':').2.1 encodeUserPassword
    pure { username := username, password := password, passwordSet := true }

/-- Go `parseAuthority`. -/
def parseAuthority (authority : Str) : Except Error (Option Userinfo × Str) :=
  match strings.LastIndexByte authority '@' with
  | none => do
    let host ← parseHost authority
    pure (none, host)
  | some i => do
    let host ← parseHost (authority.drop (i + 1))
    let user ← parseUserinfo (authority.take i)
    pure (some user, host)

/-- Go `(*URL).setPath`. -/
def URL.setPath (u : URL) (p : Str) : Except Error URL :=
  match unescape p encodePath with
  | Except.error e => Except.error e
  | Except.ok path =>
    if p == escape path encodePath then Except.ok { u with Path := path, RawPath := [] }
    else Except.ok { u with Path := path, RawPath := p }

/-- Go `(*URL).setFragment`. -/
def URL.setFragment (u : URL) (f : Str) : Except Error URL :=
  match unescape f encodeFragment with
  | Except.error e => Except.error e
  | Except.ok frag =>
    if f == escape frag encodeFragment then
      Except.ok { u with Fragment := frag, RawFragment := [] }
    else Except.ok { u with Fragment := frag, RawFragment := f }

/-- Go `parse` from the point where the scheme has been split off and
lower-cased: `scheme` is `url.Scheme`, `rest0` the text after it. -/
def parseRest (scheme rest0 : Str) (viaRequest : Bool) : Except Error URL :=
  let forceQuery := strings.HasSuffix rest0 ['?'] && strings.Count rest0 '?' == 1
  let rest := if forceQuery then rest0.dropLast else (strings.Cut rest0 '?').1
  let rawQuery := if forceQuery then [] else (strings.Cut rest0 '?').2.1
  let u : URL := { Scheme := scheme, ForceQuery := forceQuery, RawQuery := rawQuery }
  if !strings.HasPrefix rest ['/'] && scheme != [] then
    Except.ok { u with Opaque := rest }
  else if !strings.HasPrefix rest ['/'] && viaRequest then
    Except.error Error.invalidURIForRequest
  else if !strings.HasPrefix rest ['/'] &&
      strings.Contains (strings.Cut rest '/').1 [':'] then
    Except.error Error.firstPathSegmentColon
  else if (scheme != [] || (!viaRequest && !strings.HasPrefix rest "///".toList)) &&
      strings.HasPrefix rest "//".toList then
    let authority0 := rest.drop 2
    let authority :=
      match strings.IndexByte authority0 '/' with
      | some i => authority0.take i
      | none => authority0
    let rest2 :=
      match strings.IndexByte authority0 '/' with
      | some i => authority0.drop i
      | none => []
    match parseAuthority authority with
    | Except.error e => Except.error e
    | Except.ok (user, host) => URL.setPath { u with User := user, Host := host } rest2
  else if scheme != [] && strings.HasPrefix rest ['/'] then
    URL.setPath { u with OmitHost := true } rest
  else URL.setPath u rest

/-- Go `parse`. -/
def parse (rawURL : Str) (viaRequest : Bool) : Except Error URL :=
  if stringContainsCTLByte rawURL then Except.error Error.invalidControlCharacter
  else if rawURL == [] && viaRequest then Except.error Error.emptyURL
  else if rawURL == ['*'] then Except.ok { Path := ['*'] }
  else
    match getScheme rawURL with
    | Except.error e => Except.error e
    | Except.ok (scheme, rest) => parseRest (strings.ToLower scheme) rest viaRequest

/-- The scheme as written in `rawURL`: what `getScheme` splits off the text
before the fragment, before `parse` lower-cases it. -/
def rawScheme (rawURL : Str) : Str :=
  match getScheme (strings.Cut rawURL '#').1 with
  | Except.ok (scheme, _) => scheme
  | Except.error _ => []

/-- Go `url.Parse`. -/
def Parse (rawURL : Str) : Except Error URL :=
  match parse (strings.Cut rawURL '#').1 false with
  | Except.error e => Except.error e
  | Except.ok u =>
    if (strings.Cut rawURL '#').2.1 == [] then Except.ok u
    else URL.setFragment u (strings.Cut rawURL '#').2.1

/-- Go `splitHostPort`. -/
def splitHostPort (hostPort : Str) : Str × Str :=
  let split : Str × Str :=
    match strings.LastIndexByte hostPort ':' with
    | some colon =>
      if validOptionalPort (hostPort.drop colon) then
        (hostPort.take colon, hostPort.drop (colon + 1))
      else (hostPort, [])
    | none => (hostPort, [])
  if strings.HasPrefix split.1 ['['] && strings.HasSuffix split.1 [']'] then
    ((split.1.drop 1).dropLast, split.2)
  else split

/-- Go `(*URL).Port`. -/
def URL.Port (u : URL) : Str :=
  (splitHostPort u.Host).2

/-- Go `(*URL).Hostname`. -/
def URL.Hostname (u : URL) : Str :=
  (splitHostPort u.Host).1

/-- Go `(*Userinfo).String` for a non-nil receiver. -/
def Userinfo.String (ui : Userinfo) : Str :=
  if ui.passwordSet then
    escape ui.username encodeUserPassword ++ [':'] ++ escape ui.password encodeUserPassword
  else escape ui.username encodeUserPassword

/-- Go `(*URL).EscapedPath`. -/
def URL.EscapedPath (u : URL) : Str :=
  if u.RawPath != [] && validEncoded u.RawPath encodePath &&
      (match unescape u.RawPath encodePath with
        | Except.ok p => p == u.Path
        | Except.error _ => false) then u.RawPath
  else if u.Path == ['*'] then ['*']
  else escape u.Path encodePath

/-- Go `(*URL).EscapedFragment`. -/
def URL.EscapedFragment (u : URL) : Str :=
  if u.RawFragment != [] && validEncoded u.RawFragment encodeFragment &&
      (match unescape u.RawFragment encodeFragment with
        | Except.ok f => f == u.Fragment
        | Except.error _ => false) then u.RawFragment
  else escape u.Fragment encodeFragment

/-- Go `(*URL).String`: the part written before the path when `Opaque` is
empty (scheme colon excluded): `//`, userinfo and host. -/
def URL.authorityText (u : URL) : Str :=
  if u.Scheme != [] || u.Host != [] || u.User.isSome then
    if u.OmitHost && u.Host == [] && u.User.isNone then []
    else
      (if u.Host != [] || u.Path != [] || u.User.isSome then "//".toList else []) ++
      (match u.User with
        | some ui => ui.String ++ ['@']
        | none => []) ++
      (if u.Host != [] then escape u.Host encodeHost else [])
  else []

/-- Go `(*URL).String`. -/
def URL.String (u : URL) : Str :=
  let buf0 : Str := if u.Scheme != [] then u.Scheme ++ [':'] else []
  let buf1 : Str :=
    if u.Opaque != [] then buf0 ++ u.Opaque
    else
      let buf := buf0 ++ u.authorityText
      let path := u.EscapedPath
      let buf := if path != [] && path.head? != some '/' && u.Host != [] then buf ++ ['/'] else buf
      let buf :=
        if buf.length == 0 && strings.Contains (strings.Cut path '/').1 [':'] then
          buf ++ "./".toList
        else buf
      buf ++ path
  let buf2 : Str := if u.ForceQuery || u.RawQuery != [] then buf1 ++ ['?'] ++ u.RawQuery else buf1
  if u.Fragment != [] then buf2 ++ ['#'] ++ u.EscapedFragment else buf2

/-- A string all of whose elements are bytes. -/
def Bytes (s : Str) : Prop :=
  ∀ c ∈ s, c.toNat < 256

instance (s : Str) : Decidable (Bytes s) := by
  unfold Bytes; infer_instance

/-- What `url.Parse` guarantees about the fields of a URL it returns with a
non-empty scheme, for a raw URL that is a byte string. -/
structure Shape (u : URL) : Prop where
  rootless_clean : '?' ∉ u.Opaque ∧ '#' ∉ u.Opaque
  rootless_head : u.Opaque.head? ≠ some '/'
  rootless_fields : u.Opaque ≠ [] → u.Path = [] ∧ u.RawPath = [] ∧ u.User = none
  query_clean : '#' ∉ u.RawQuery
  force_query : u.ForceQuery = true → u.RawQuery = []
  path_head : u.Path = [] ∨ u.Path.head? = some '/'
  path_bytes : Bytes u.Path
  rawpath_head : u.RawPath = [] ∨ u.RawPath.head? = some '/'
  rawpath_clean : '?' ∉ u.RawPath ∧ '#' ∉ u.RawPath
  user_bytes : ∀ ui, u.User = some ui →
    Bytes ui.username ∧ Bytes ui.password ∧ (ui.passwordSet = false → ui.password = [])

/-- The query part that `(*URL).String` writes. -/
def URL.queryText (u : URL) : Str :=
  if u.ForceQuery || u.RawQuery != [] then '?' :: u.RawQuery else []

/-- The userinfo and host that `(*URL).String` writes after `//`. -/
def URL.authority (u : URL) : Str :=
  (match u.User with
    | some ui => ui.String ++ ['@']
    | none => []) ++
  (if u.Host != [] then escape u.Host encodeHost else [])

end url

/-! ## `internal/api/handler.go` -/

namespace api

open url

/-- The value of `u` in `canonicalizeURL` when `u.String()` is called: the
assignments to `u.Scheme`, `u.Host`, `u.Path` and `u.Fragment`, in order. -/
def canonicalFields (u : URL) : URL :=
  let u := { u with Scheme := strings.ToLower u.Scheme }
  let u := { u with Host := strings.ToLower u.Host }
  let u :=
    if (u.Scheme == "http".toList && u.Port == "80".toList) ||
        (u.Scheme == "https".toList && u.Port == "443".toList) then
      { u with Host := (strings.Split u.Host ':').headD [] }
    else u
  let u := { u with Path := strings.TrimRight u.Path '/' }
  { u with Fragment := [] }

/-- Go `canonicalizeURL`: the returned string and the returned error (`none`
for `nil`). -/
def canonicalizeURL (raw : Str) : Str × Option url.Error :=
  match url.Parse raw with
  | Except.error err => ([], some err)
  | Except.ok u =>
    if u.Scheme != "http".toList && u.Scheme != "https".toList then
      ([], some url.Error.invalidScheme)
    else ((canonicalFields u).String, none)

/-- The body of `canonicalizeURL` between the scheme test and `u.String()`,
with the lower-casing of the host left open: `lowerHost` stands for Go's
`strings.ToLower` on `u.Host`, whose Unicode case tables are not part of the
sources.  `canonicalFields` is the instance that lower-cases ASCII letters. -/
def canonicalFieldsWith (lowerHost : Str → Str) (u : URL) : URL :=
  let u := { u with Scheme := strings.ToLower u.Scheme }
  let u := { u with Host := lowerHost u.Host }
  let u :=
    if (u.Scheme == "http".toList && u.Port == "80".toList) ||
        (u.Scheme == "https".toList && u.Port == "443".toList) then
      { u with Host := (strings.Split u.Host ':').headD [] }
    else u
  let u := { u with Path := strings.TrimRight u.Path '/' }
  { u with Fragment := [] }

/-- Go `canonicalizeURL` with the lower-casing of the host left open (see
`canonicalFieldsWith`). -/
def canonicalizeURLWith (lowerHost : Str → Str) (raw : Str) : Str × Option url.Error :=
  match url.Parse raw with
  | Except.error err => ([], some err)
  | Except.ok u =>
    if u.Scheme != "http".toList && u.Scheme != "https".toList then
      ([], some url.Error.invalidScheme)
    else ((canonicalFieldsWith lowerHost u).String, none)

end api

/-! ## `internal/storage/storage.go`

The SQLite database is modelled by its three tables, each the list of its
rows in insertion order, and each statement by its effect on them.  The only
error a statement returns here is `sql.ErrNoRows`; I/O failures of the driver
are outside the model.  Timestamps are stored by the driver as UTC text whose
text order is the order of the instants, so `created_at` comparisons are
comparisons of instants. -/

namespace storage

/-- Go `storage.Target`. -/
structure Target where
  ID : Str
  URL : Str
  CreatedAt : Nat
  deriving DecidableEq, Repr

/-- A row of table `targets (id TEXT PRIMARY KEY, url TEXT UNIQUE NOT NULL,
created_at DATETIME NOT NULL)`. -/
structure TargetRow where
  id : Str
  url : Str
  created_at : Nat
  deriving DecidableEq, Repr

/-- A row of table `idempotency_keys (key TEXT PRIMARY KEY, target_id TEXT NOT
NULL)`. -/
structure KeyRow where
  key : Str
  target_id : Str
  deriving DecidableEq, Repr

/-- Go `storage.CheckResult`. -/
structure CheckResult where
  CheckedAt : Nat
  StatusCode : Int
  LatencyMs : Int
  Error : Str
  deriving DecidableEq, Repr

/-- A row of table `check_results` (without its autoincrement id). -/
structure ResultRow where
  target_id : Str
  result : CheckResult
  deriving DecidableEq, Repr

/-- The state of the database behind `SQLiteStorage`. -/
structure DB where
  targets : List TargetRow := []
  check_results : List ResultRow := []
  idempotency_keys : List KeyRow := []
  deriving DecidableEq, Repr

/-- The constraints of the schema created by `Init`: `targets.id` is a
primary key, `targets.url` is unique, `idempotency_keys.key` is a primary
key. -/
structure DB.Valid (db : DB) : Prop where
  id_unique : (db.targets.map fun r => r.id).Nodup
  url_unique : (db.targets.map fun r => r.url).Nodup
  key_unique : (db.idempotency_keys.map fun r => r.key).Nodup

/-- The errors of the storage layer. -/
inductive Error where
  | ErrNoRows
  | invalidPageToken
  deriving DecidableEq, Repr

/-- Statement `INSERT OR IGNORE INTO targets (id, url, created_at) VALUES
(?, ?, ?)`: the new state and `RowsAffected`. -/
def insertOrIgnoreTarget (db : DB) (row : TargetRow) : DB × Nat :=
  if db.targets.any fun r => r.id == row.id || r.url == row.url then (db, 0)
  else ({ db with targets := db.targets ++ [row] }, 1)

/-- Statement `INSERT OR IGNORE INTO idempotency_keys (key, target_id) VALUES
(?, ?)`. -/
def insertOrIgnoreKey (db : DB) (row : KeyRow) : DB :=
  if db.idempotency_keys.any fun r => r.key == row.key then db
  else { db with idempotency_keys := db.idempotency_keys ++ [row] }

/-- Query `SELECT target_id FROM idempotency_keys WHERE key = ?` scanned with
`QueryRow`: `none` is `sql.ErrNoRows`. -/
def selectKey (db : DB) (key : Str) : Option Str :=
  (db.idempotency_keys.find? fun r => r.key == key).map fun r => r.target_id

/-- Query `SELECT ... FROM targets WHERE id = ?` scanned with `QueryRow`. -/
def selectTargetById (db : DB) (id : Str) : Option TargetRow :=
  db.targets.find? fun r => r.id == id

/-- Query `SELECT ... FROM targets WHERE url = ?` scanned with `QueryRow`. -/
def selectTargetByUrl (db : DB) (url : Str) : Option TargetRow :=
  db.targets.find? fun r => r.url == url

/-- Go `(*SQLiteStorage).getTarget`: the target (never nil) and the error. -/
def getTarget (db : DB) (id : Str) : Target × Option Error :=
  match selectTargetById db id with
  | some r => ({ ID := id, URL := r.url, CreatedAt := r.created_at }, none)
  | none => ({ ID := id, URL := [], CreatedAt := 0 }, some Error.ErrNoRows)

/-- Go `(*SQLiteStorage).CreateTarget` from the `INSERT OR IGNORE INTO targets`
statement to the end. -/
def createTargetInsert (db : DB) (id : Str) (createdAt : Nat) (url idempotencyKey : Str) :
    DB × Option Target × Bool × Option Error :=
  let db1 := (insertOrIgnoreTarget db { id := id, url := url, created_at := createdAt }).1
  let rowsAffected := (insertOrIgnoreTarget db { id := id, url := url, created_at := createdAt }).2
  let isNew := decide (rowsAffected > 0)
  match selectTargetByUrl db1 url with
  | none => (db1, none, false, some Error.ErrNoRows)
  | some r =>
    let db2 :=
      if idempotencyKey != [] then insertOrIgnoreKey db1 { key := idempotencyKey, target_id := r.id }
      else db1
    (db2, some { ID := r.id, URL := url, CreatedAt := r.created_at }, isNew, none)

/-- Go `(*SQLiteStorage).CreateTarget`: `uuid` is the value of
`uuid.NewString()` and `now` that of `time.Now().UTC()` in this call.  The
result is the new database state and the three returned values (target,
`isNew`, error). -/
def CreateTarget (db : DB) (uuid : Str) (now : Nat) (url idempotencyKey : Str) :
    DB × Option Target × Bool × Option Error :=
  let id := "t_".toList ++ uuid
  let createdAt := now
  if idempotencyKey != [] then
    match selectKey db idempotencyKey with
    | some existingID => (db, some (getTarget db existingID).1, false, (getTarget db existingID).2)
    | none => createTargetInsert db id createdAt url idempotencyKey
  else createTargetInsert db id createdAt url idempotencyKey

/-- SQLite `LOWER()`: ASCII letters are lower-cased. -/
def sqlLower (s : Str) : Str :=
  s.map strings.lowerByte

/-- SQLite `text LIKE pattern` with the default settings: `%` matches any
run of bytes, `_` any single one, other bytes match themselves up to ASCII
letter case. -/
def sqlLike : Str → Str → Bool
  | [], text => text.isEmpty
  | p :: pattern, text =>
    if p == '%' then text.tails.any fun t => sqlLike pattern t
    else
      match text with
      | [] => false
      | c :: cs =>
        (p == '_' || strings.lowerByte p == strings.lowerByte c) && sqlLike pattern cs

/-- Nanoseconds per second. -/
def second : Nat := 1000000000

/-- The content of a non-empty page token, base64 of `<RFC3339>|<id>`: the
instant written with second precision (as a number of whole seconds) and the
id.  `none : Option PageToken` is the empty token. -/
structure PageToken where
  seconds : Nat
  id : Str
  deriving DecidableEq, Repr

/-- Row order `ORDER BY created_at ASC, id ASC`. -/
def rowLE (a b : TargetRow) : Bool :=
  decide (a.created_at < b.created_at) ||
    (a.created_at == b.created_at && !strings.Less b.id a.id)

/-- The `WHERE` clause that `ListTargets` builds from `host` and the decoded
cursor. -/
def listWhere (host : Str) (cursor : Option (Nat × Str)) (r : TargetRow) : Bool :=
  (if host != [] then
      sqlLike ("%://".toList ++ strings.ToLower host ++ ['%']) (sqlLower r.url)
    else true) &&
  (match cursor with
    | some (createdAt, cursorID) =>
      decide (r.created_at > createdAt) ||
        (r.created_at == createdAt && strings.Less cursorID r.id)
    | none => true)

/-- Query `SELECT id, url, created_at FROM targets <where> ORDER BY created_at
ASC, id ASC LIMIT ?`. -/
def selectTargets (db : DB) (keep : TargetRow → Bool) (limit : Nat) : List TargetRow :=
  ((db.targets.filter keep).insertionSort fun a b => rowLE a b = true).take limit

/-- Go `(*SQLiteStorage).ListTargets` for a limit that is not negative.  A
token decodes to two parts only when its id part holds no `|`; its instant is
read back by `time.Parse(time.RFC3339, ...)`. -/
def ListTargets (db : DB) (host : Str) (limit : Nat) (pageToken : Option PageToken) :
    Except Error (List Target × Option PageToken) :=
  let cursor : Except Error (Option (Nat × Str)) :=
    match pageToken with
    | none => Except.ok none
    | some token =>
      if strings.Contains token.id ['|'] then Except.error Error.invalidPageToken
      else Except.ok (some (token.seconds * second, token.id))
  match cursor with
  | Except.error e => Except.error e
  | Except.ok cursor =>
    let items : List Target :=
      (selectTargets db (listWhere host cursor) (limit + 1)).map fun r =>
        { ID := r.id, URL := r.url, CreatedAt := r.created_at }
    if items.length > limit then
      match items.get? limit with
      | some last =>
        Except.ok (items.take limit,
          some { seconds := last.CreatedAt / second, id := last.ID })
      | none => Except.ok (items.take limit, none)
    else Except.ok (items, none)

/-- A client that chains `ListTargets("", limit, token)` from `token` through
each returned next token, for at most `pages` calls: the targets received, in
order, and whether the chain ended with an empty next token. -/
def listAll (db : DB) (limit : Nat) : Nat → Option PageToken → List Target × Bool
  | 0, _ => ([], false)
  | pages + 1, token =>
    match ListTargets db [] limit token with
    | Except.error _ => ([], false)
    | Except.ok (items, none) => (items, true)
    | Except.ok (items, some next) =>
      (items ++ (listAll db limit pages (some next)).1, (listAll db limit pages (some next)).2)

/-- Two targets registered within the same second:
`t_a` at 1700000000.1 s and `t_b` at 1700000000.5 s. -/
def dbSameSecond : DB :=
  { targets :=
      [ { id := "t_a".toList, url := "https://a.com".toList, created_at := 1700000000100000000 },
        { id := "t_b".toList, url := "https://b.com".toList, created_at := 1700000000500000000 } ] }

/-- The target `t_a` of `dbSameSecond` as `ListTargets` returns it. -/
def targetA : Target :=
  { ID := "t_a".toList, URL := "https://a.com".toList, CreatedAt := 1700000000100000000 }

/-- The page token built from `t_b` of `dbSameSecond`: its instant cut to the
second, and its id. -/
def tokenB : PageToken :=
  { seconds := 1700000000, id := "t_b".toList }

/-- Two targets registered a second apart, each on a whole second. -/
def dbWholeSeconds : DB :=
  { targets :=
      [ { id := "t_a".toList, url := "https://a.com".toList, created_at := 1700000000000000000 },
        { id := "t_b".toList, url := "https://b.com".toList, created_at := 1700000001000000000 } ] }

/-- Three targets whose hosts all start with `a.com`. -/
def dbHosts : DB :=
  { targets :=
      [ { id := "t_1".toList, url := "https://a.com".toList, created_at := 1700000000100000000 },
        { id := "t_2".toList, url := "https://a.com.evil.org".toList,
          created_at := 1700000001100000000 },
        { id := "t_3".toList, url := "https://a.community".toList,
          created_at := 1700000002100000000 } ] }

/-- Key `k1` recorded for the target of `https://b.com`. -/
def dbKeyTaken : DB :=
  { targets :=
      [ { id := "t_b".toList, url := "https://b.com".toList, created_at := 1700000000100000000 } ],
    idempotency_keys := [ { key := "k1".toList, target_id := "t_b".toList } ] }

/-- The `Target` that `ListTargets` scans from a row. -/
def TargetRow.toTarget (r : TargetRow) : Target :=
  { ID := r.id, URL := r.url, CreatedAt := r.created_at }

/-- The decimal digit `n % 10` as a byte. -/
def digit (n : Nat) : Char :=
  Char.ofNat (48 + n % 10)

/-- The last five decimal digits of `i`. -/
def decimal5 (i : Nat) : Str :=
  [digit (i / 10000), digit (i / 1000), digit (i / 100), digit (i / 10), digit i]

/-- The `i`-th row of `dbMany`: a fresh id, the URL `https://example.com/p<i>`
and a registration instant `i` seconds after the first. -/
def manyRow (i : Nat) : TargetRow :=
  { id := "t_00000000-0000-4000-8000-0000000".toList ++ decimal5 i,
    url := "https://example.com/p".toList ++ decimal5 i,
    created_at := (1700000000 + i) * second + 500000000 }

/-- The rows `manyRow 0`, ..., `manyRow (n - 1)`. -/
def manyRows (n : Nat) : List TargetRow :=
  (List.range n).map manyRow

/-- 10001 registered targets. -/
def dbMany : DB :=
  { targets := manyRows 10001 }

end storage

/-! ## `internal/checker/checker.go` -/

namespace checker

open storage

/-- What `isRetryableError` and `checkOne` observe of a non-nil `err`
returned by `c.httpClient.Get`: whether it is a `net.Error` whose `Timeout()`
is true, whether `errors.Is(err, context.DeadlineExceeded)`, and the text
`err.Error()`. -/
structure TransportError where
  timeout : Bool
  deadlineExceeded : Bool
  text : Str
  deriving DecidableEq, Repr

/-- The result of one `c.httpClient.Get(t.URL)` together with the latency that
`checkOne` measures around it: either a response (`err == nil`) with its
`resp.StatusCode`, or a transport error. -/
inductive Outcome where
  | response (statusCode : Int) (latencyMs : Int)
  | failure (err : TransportError) (latencyMs : Int)
  deriving DecidableEq, Repr

/-- Go `isRetryableError`. -/
def isRetryableError (err : TransportError) : Bool :=
  if err.timeout then true
  else if err.deadlineExceeded then true
  else strings.Contains err.text "connection refused".toList
    || strings.Contains err.text "no such host".toList

/-- The externally visible steps of one probe: the HTTP requests issued (with
the loop counter `attempt`) and the `time.Sleep` calls (in milliseconds). -/
inductive Event where
  | get (attempt : Nat)
  | sleep (ms : Nat)
  deriving DecidableEq, Repr

/-- State of the retry loop of `checkOne`: the `result` being filled in, the
current `backoff` (ms) and the steps taken so far. -/
structure LoopState where
  result : CheckResult
  backoff : Nat
  trace : List Event
  deriving DecidableEq, Repr

/-- The loop `for attempt := 0; attempt < 3; attempt++ { ... }` of `checkOne`.
`get attempt` is the outcome of the request made in iteration `attempt`.  The
first argument bounds the number of iterations still to run; the loop runs at
most three, so `checkOne` starts it at 3. -/
def attemptLoop (get : Nat → Outcome) : Nat → Nat → LoopState → LoopState
  | 0, _, st => st
  | fuel + 1, attempt, st =>
    if attempt < 3 then
      let trace := st.trace ++ [Event.get attempt]
      match get attempt with
      | Outcome.failure err latency =>
        let result := { st.result with LatencyMs := latency }
        if attempt < 2 && isRetryableError err then
          attemptLoop get fuel (attempt + 1)
            { result := result, backoff := st.backoff * 2,
              trace := trace ++ [Event.sleep st.backoff] }
        else
          { st with result := { result with Error := err.text }, trace := trace }
      | Outcome.response statusCode latency =>
        let result := { st.result with LatencyMs := latency, StatusCode := statusCode }
        if attempt < 2 && decide (statusCode ≥ 500) then
          attemptLoop get fuel (attempt + 1)
            { result := result, backoff := st.backoff * 2,
              trace := trace ++ [Event.sleep st.backoff] }
        else
          { st with result := result, trace := trace }
    else st

/-- Go `(*Checker).checkOne` from `result := &storage.CheckResult{...}` to the
call of `SaveCheckResult` (checker.go:112-143), the part that runs while the
host mutex is held: `now` is `time.Now().UTC()`, `get` gives the outcome of
each attempt.  The returned state holds the `CheckResult` handed to
`SaveCheckResult` and the requests and sleeps performed. -/
def checkOneLocked (get : Nat → Outcome) (now : Nat) : LoopState :=
  attemptLoop get 3 0
    { result := { CheckedAt := now, StatusCode := 0, LatencyMs := 0, Error := [] },
      backoff := 200, trace := [] }

/-- What a call of `checkOne` that returns has done: `host` is the key under
which it took the mutex from `hostMu` (locked before the first attempt,
unlocked by the deferred `mu.Unlock()` after `SaveCheckResult`), `state` holds
the saved `CheckResult` and the requests and sleeps performed. -/
structure CheckOneRun where
  host : Str
  state : LoopState
  deriving DecidableEq, Repr

/-- Go `(*Checker).checkOne`, run with no other goroutine holding the host
mutex.  The error of `url.Parse(t.URL)` is dropped (`u, _ := ...`); when the
stored URL does not parse `u` is nil and `host := u.Host` is a nil-pointer
dereference: the call panics before any request and saves nothing, which is
the result `none`. -/
def checkOne (t : Target) (get : Nat → Outcome) (now : Nat) : Option CheckOneRun :=
  match url.Parse t.URL with
  | Except.error _ => none
  | Except.ok u => some { host := u.Host, state := checkOneLocked get now }

/-- An attempt after which `checkOne` stops whatever attempts remain: an HTTP
response with status below 500, or a transport error that is not retryable. -/
def Outcome.isFinal : Outcome → Bool
  | Outcome.response statusCode _ => decide (statusCode < 500)
  | Outcome.failure err _ => !isRetryableError err

/-- The first position in 1..3 whose outcome is final, 3 when there is none. -/
def attemptsExpected (get : Nat → Outcome) : Nat :=
  if (get 0).isFinal then 1 else if (get 1).isFinal then 2 else 3

/-- Requests and sleeps of a probe that makes `k` attempts and sleeps 200 ms
after the first and 400 ms after the second, when they are followed by
another attempt. -/
def traceExpected : Nat → List Event
  | 0 => []
  | 1 => [Event.get 0]
  | 2 => [Event.get 0, Event.sleep 200, Event.get 1]
  | _ => [Event.get 0, Event.sleep 200, Event.get 1, Event.sleep 400, Event.get 2]

/-- Number of HTTP requests in a trace. -/
def requestCount (trace : List Event) : Nat :=
  (trace.filter fun e => match e with | Event.get _ => true | Event.sleep _ => false).length

/-- Total time slept in a trace, in milliseconds. -/
def sleepTotal (trace : List Event) : Nat :=
  (trace.map fun e => match e with | Event.get _ => 0 | Event.sleep ms => ms).sum

/-- The invariant on persisted results: a status without error text, or no
status with an error text. -/
def CheckResultOk (r : CheckResult) : Prop :=
  (r.StatusCode ≠ 0 ∧ r.Error = []) ∨ (r.StatusCode = 0 ∧ r.Error ≠ [])

instance (r : CheckResult) : Decidable (CheckResultOk r) := by
  unfold CheckResultOk; infer_instance

/-- A target whose stored URL parses. -/
def targetH : Target :=
  { ID := "t_h".toList, URL := "http://h.example/".toList, CreatedAt := 1700000000100000000 }

/-- A target whose stored URL is `http://[`, the string that `canonicalizeURL`
returns for `http://[::1]:80/`. -/
def targetBracket : Target :=
  { ID := "t_v6".toList, URL := "http://[".toList, CreatedAt := 1700000000100000000 }

/-- Server that answers 500 and then resets the connection. -/
def get500ThenReset : Nat → Outcome
  | 0 => Outcome.response 500 12
  | _ => Outcome.failure
      { timeout := false, deadlineExceeded := false,
        text := "Get \"http://h.example/\": read: connection reset by peer".toList } 3

/-- Server that answers 500, 500, 200. -/
def get500500200 : Nat → Outcome
  | 0 => Outcome.response 500 1
  | 1 => Outcome.response 500 1
  | _ => Outcome.response 200 1

/-- Server that answers 404. -/
def get404 : Nat → Outcome
  | _ => Outcome.response 404 1

/-- Go `(*Checker).checkAll` up to `close(queue)`: the targets sent to the
work queue, in order, for the database state read by this tick; `none` when
`ListTargets` fails and `checkAll` returns without building a queue. -/
def checkAll (db : DB) : Option (List Target) :=
  match ListTargets db [] 10000 none with
  | Except.error _ => none
  | Except.ok (targets, _) => some targets

end checker

/-! ## Properties -/

namespace storage

theorem find_of_mem_nodup {α : Type} (f : α → Str) :
    ∀ (l : List α), (l.map f).Nodup → ∀ r ∈ l, l.find? (fun x => f x == f r) = some r
  | [], _, r, hr => by cases hr
  | x :: xs, hnd, r, hr => by
    rw [List.map_cons, List.nodup_cons] at hnd
    by_cases hx : f x = f r
    · have hxr : x = r := by
        rcases List.mem_cons.mp hr with h | h
        · exact h.symm
        · exact absurd (hx ▸ List.mem_map_of_mem f h) hnd.1
      subst hxr
      simp
    · have hr2 : r ∈ xs := by
        rcases List.mem_cons.mp hr with h | h
        · exact absurd (h ▸ rfl) hx
        · exact h
      rw [List.find?_cons_of_neg _ (by simpa using hx)]
      exact find_of_mem_nodup f xs hnd.2 r hr2

theorem find_append_of_none {α : Type} (p : α → Bool) (l : List α) (a : α)
    (hl : ∀ x ∈ l, p x = false) (ha : p a = true) : (l ++ [a]).find? p = some a := by
  rw [List.find?_append]
  have : l.find? p = none := by
    rw [List.find?_eq_none]
    intro x hx
    simp [hl x hx]
  simp [this, ha]

theorem createTargetInsert_existing (db : DB) (id : Str) (now : Nat) (url : Str) (r : TargetRow)
    (hr : selectTargetByUrl db url = some r) :
    createTargetInsert db id now url [] =
      (db, some { ID := r.id, URL := url, CreatedAt := r.created_at }, false, none) := by
  have hmem : r ∈ db.targets := List.mem_of_find?_eq_some hr
  have hurl : r.url = url := by
    have := List.find?_some hr
    simpa using this
  have hany : (db.targets.any fun x => x.id == id || x.url == url) = true := by
    rw [List.any_eq_true]
    exact ⟨r, hmem, by simp [hurl]⟩
  unfold createTargetInsert insertOrIgnoreTarget
  simp only [hany, if_true, hr]
  simp

theorem createTargetInsert_spec (db : DB) (id : Str) (now : Nat) (url key : Str)
    (hid : (db.targets.map fun r => r.id).Nodup)
    (hfresh : ∀ r ∈ db.targets, r.id ≠ id) :
    ∃ r isNew db2,
      createTargetInsert db id now url key =
        (db2, some { ID := r.id, URL := url, CreatedAt := r.created_at }, isNew, none) ∧
      r.url = url ∧
      selectTargetByUrl db2 url = some r ∧
      selectTargetById db2 r.id = some r ∧
      (key ≠ [] → selectKey db key = none → selectKey db2 key = some r.id) ∧
      (∀ x ∈ db2.targets, x ∈ db.targets ∨ x.url = url) := by
  -- the state after the first statement and the row the second one reads
  obtain ⟨db1, r, h1, h2, hurl, hbyurl, hbyid, htargets⟩ :
      ∃ db1 r, (insertOrIgnoreTarget db { id := id, url := url, created_at := now }).1 = db1 ∧
        db1.idempotency_keys = db.idempotency_keys ∧ r.url = url ∧
        selectTargetByUrl db1 url = some r ∧ selectTargetById db1 r.id = some r ∧
        (∀ x ∈ db1.targets, x ∈ db.targets ∨ x.url = url) := by
    unfold insertOrIgnoreTarget
    by_cases hany : (db.targets.any fun x => x.id == id || x.url == url) = true
    · simp only [hany, if_true]
      obtain ⟨x, hx, hxc⟩ := List.any_eq_true.mp hany
      have hxu : x.url = url := by
        rcases Bool.or_eq_true _ _ |>.mp hxc with h | h
        · exact absurd (by simpa using h) (hfresh x hx)
        · simpa using h
      have hsome : (db.targets.find? fun y => y.url == url).isSome = true := by
        rw [List.find?_isSome]
        exact ⟨x, hx, by simp [hxu]⟩
      obtain ⟨r, hr⟩ := Option.isSome_iff_exists.mp hsome
      have hmem : r ∈ db.targets := List.mem_of_find?_eq_some hr
      refine ⟨db, r, rfl, rfl, by simpa using List.find?_some hr, hr, ?_, fun y hy => Or.inl hy⟩
      exact find_of_mem_nodup (fun y : TargetRow => y.id) db.targets hid r hmem
    · have hnone : ∀ x ∈ db.targets, (x.id == id || x.url == url) = false := by
        intro x hx
        by_contra hc
        exact hany (List.any_eq_true.mpr ⟨x, hx, (Bool.not_eq_false _).mp hc⟩)
      simp only [hany]
      refine ⟨_, { id := id, url := url, created_at := now }, rfl, rfl, rfl, ?_, ?_, ?_⟩
      · exact find_append_of_none _ _ _
          (fun x hx => by have := hnone x hx; simp at this ⊢; exact this.2) (by simp)
      · exact find_append_of_none _ _ _
          (fun x hx => by have := hnone x hx; simp at this ⊢; exact this.1) (by simp)
      · intro x hx
        rcases List.mem_append.mp hx with h | h
        · exact Or.inl h
        · right
          have : x = { id := id, url := url, created_at := now } := by simpa using h
          rw [this]
  unfold createTargetInsert
  simp only [h1, hbyurl]
  by_cases hk : key = []
  · subst hk
    exact ⟨r, decide ((insertOrIgnoreTarget db
      { id := id, url := url, created_at := now }).2 > 0), db1, by simp, hurl, hbyurl, hbyid,
      fun h => absurd rfl h, htargets⟩
  · have hb : (key != []) = true := by simpa using hk
    simp only [hb, if_true]
    refine ⟨r, _, _, rfl, hurl, ?_, ?_, ?_, ?_⟩
    · unfold insertOrIgnoreKey selectTargetByUrl
      split_ifs
      · exact hbyurl
      · exact hbyurl
    · unfold insertOrIgnoreKey selectTargetById
      split_ifs
      · exact hbyid
      · exact hbyid
    · intro _ hsel
      have hfree : ∀ x ∈ db.idempotency_keys, (x.key == key) = false := by
        intro x hx
        unfold selectKey at hsel
        rw [Option.map_eq_none', List.find?_eq_none] at hsel
        simpa using hsel x hx
      have hany : (db1.idempotency_keys.any fun x => x.key == key) = false := by
        rw [h2, Bool.eq_false_iff]
        intro hc
        obtain ⟨x, hx, hxc⟩ := List.any_eq_true.mp hc
        rw [hfree x hx] at hxc
        cases hxc
      unfold insertOrIgnoreKey selectKey
      rw [if_neg (by rw [hany]; exact Bool.false_ne_true)]
      show Option.map _ (List.find? _ (db1.idempotency_keys ++ [_])) = _
      rw [h2, find_append_of_none (fun x : KeyRow => x.key == key) _ _ hfree (by simp)]
      rfl
    · unfold insertOrIgnoreKey
      split_ifs
      · exact htargets
      · exact htargets

theorem CreateTarget_no_key (db : DB) (uuid : Str) (now : Nat) (url : Str) :
    CreateTarget db uuid now url [] = createTargetInsert db ("t_".toList ++ uuid) now url [] := by
  simp [CreateTarget]

theorem CreateTarget_key_none (db : DB) (uuid : Str) (now : Nat) (url k : Str)
    (hk : k ≠ []) (hsel : selectKey db k = none) :
    CreateTarget db uuid now url k = createTargetInsert db ("t_".toList ++ uuid) now url k := by
  have hb : (k != []) = true := by simpa using hk
  simp [CreateTarget, hb, hsel]

theorem CreateTarget_key_some (db : DB) (uuid : Str) (now : Nat) (url k tid : Str)
    (hk : k ≠ []) (hsel : selectKey db k = some tid) :
    CreateTarget db uuid now url k =
      (db, some (getTarget db tid).1, false, (getTarget db tid).2) := by
  have hb : (k != []) = true := by simpa using hk
  simp [CreateTarget, hb, hsel]

theorem getTarget_of_select (db : DB) (id : Str) (r : TargetRow)
    (h : selectTargetById db id = some r) :
    getTarget db id = ({ ID := id, URL := r.url, CreatedAt := r.created_at }, none) := by
  simp [getTarget, h]

theorem selectKey_none_of_free (db : DB) (k : Str)
    (h : ∀ r ∈ db.idempotency_keys, r.key ≠ k) : selectKey db k = none := by
  unfold selectKey
  rw [Option.map_eq_none', List.find?_eq_none]
  intro x hx
  simpa using h x hx

/-- The schema constraints hold in the empty database and are kept by
`CreateTarget`. -/
theorem CreateTarget_valid (db : DB) (uuid : Str) (now : Nat) (url k : Str) (hv : db.Valid) :
    (CreateTarget db uuid now url k).1.Valid := by
  have hins : ∀ id, (createTargetInsert db id now url k).1.Valid := by
    intro id
    have h1 : (insertOrIgnoreTarget db { id := id, url := url, created_at := now }).1.Valid := by
      unfold insertOrIgnoreTarget
      split_ifs with hany
      · exact hv
      · have hnone : ∀ x ∈ db.targets, ¬ (x.id = id ∨ x.url = url) := by
          intro x hx hc
          exact hany (List.any_eq_true.mpr ⟨x, hx, by simpa using hc⟩)
        refine ⟨?_, ?_, hv.key_unique⟩
        · simp only [List.map_append, List.map_cons, List.map_nil]
          refine List.Nodup.append hv.id_unique (List.nodup_singleton _) ?_
          rw [List.disjoint_singleton]
          intro hm
          obtain ⟨x, hx, hxe⟩ := List.mem_map.mp hm
          exact hnone x hx (Or.inl hxe)
        · simp only [List.map_append, List.map_cons, List.map_nil]
          refine List.Nodup.append hv.url_unique (List.nodup_singleton _) ?_
          rw [List.disjoint_singleton]
          intro hm
          obtain ⟨x, hx, hxe⟩ := List.mem_map.mp hm
          exact hnone x hx (Or.inr hxe)
    have h2 : ∀ (d : DB) (row : KeyRow), d.Valid → (insertOrIgnoreKey d row).Valid := by
      intro d row hd
      unfold insertOrIgnoreKey
      split_ifs with hany
      · exact hd
      · refine ⟨hd.id_unique, hd.url_unique, ?_⟩
        simp only [List.map_append, List.map_cons, List.map_nil]
        refine List.Nodup.append hd.key_unique (List.nodup_singleton _) ?_
        rw [List.disjoint_singleton]
        intro hm
        obtain ⟨x, hx, hxe⟩ := List.mem_map.mp hm
        exact hany (List.any_eq_true.mpr ⟨x, hx, by simpa using hxe⟩)
    unfold createTargetInsert
    simp only
    split
    · exact h1
    · split_ifs
      · exact h2 _ _ h1
      · exact h1
  unfold CreateTarget
  simp only
  split_ifs
  · split
    · exact hv
    · exact hins _
  · exact hins _

/-- C1 (evaluation at the failing input): with two targets registered within
the same second and `limit = 1`, every page of the chain returns the first
target again with the same non-empty next token, so the chain never ends and
never returns the second target; with two targets on whole seconds the chain
ends after returning only the first. -/
theorem listAll_misses_targets :
    (∀ pages, listAll dbSameSecond 1 pages none = (List.replicate pages targetA, false)) ∧
    ListTargets dbSameSecond [] 1 none = Except.ok ([targetA], some tokenB) ∧
    ListTargets dbSameSecond [] 1 (some tokenB) = Except.ok ([targetA], some tokenB) ∧
    listAll dbWholeSeconds 1 2 none =
      ([{ ID := "t_a".toList, URL := "https://a.com".toList,
          CreatedAt := 1700000000000000000 }], true) := by
  have hpage : ∀ token, (token = none ∨ token = some tokenB) →
      ListTargets dbSameSecond [] 1 token = Except.ok ([targetA], some tokenB) := by
    intro token htoken
    rcases htoken with h | h <;> (subst h; rfl)
  have key : ∀ pages token, (token = none ∨ token = some tokenB) →
      listAll dbSameSecond 1 pages token = (List.replicate pages targetA, false) := by
    intro pages
    induction pages with
    | zero => intro token _; rfl
    | succ n ih =>
      intro token htoken
      unfold listAll
      rw [hpage token htoken]
      simp only
      rw [ih _ (Or.inr rfl)]
      rfl
  exact ⟨fun pages => key pages none (Or.inl rfl), hpage _ (Or.inl rfl), hpage _ (Or.inr rfl),
    by decide⟩

/-- C7 (counterexample): in the state reached by registering `https://b.com`
with key `k1`, registering `https://a.com` with key `k1` returns the target of
`https://b.com`, and registering `https://a.com` again with no key creates a
target with another id and reports `isNew = true`. -/
theorem CreateTarget_twice_key_taken :
    (CreateTarget {} "b".toList 1700000000100000000 "https://b.com".toList "k1".toList).1 =
      dbKeyTaken ∧
    CreateTarget dbKeyTaken "x".toList 1700000005000000000 "https://a.com".toList "k1".toList =
      (dbKeyTaken,
        some { ID := "t_b".toList, URL := "https://b.com".toList,
               CreatedAt := 1700000000100000000 }, false, none) ∧
    (CreateTarget dbKeyTaken "y".toList 1700000009000000000 "https://a.com".toList []).2 =
      (some { ID := "t_y".toList, URL := "https://a.com".toList,
              CreatedAt := 1700000009000000000 }, true, none) := by
  decide

/-- C7 (amended): in every store state satisfying the schema constraints, for
a fresh generated id, every URL `u` and every key `k` (possibly empty):
registering `u` with `k` and then again with the same key `k` returns targets
with the same id, and the second call reports `isNew = false`; the same holds
when the second call carries no key, provided `k` is empty, not yet recorded,
or recorded for the target of `u`.  The two calls return the same error value,
which is `nil` whenever the target recorded for `k`, if any, exists. -/
theorem CreateTarget_twice (db : DB) (uuid1 uuid2 : Str) (now1 now2 : Nat) (u k k2 : Str)
    (hv : db.Valid)
    (hfresh : ∀ r ∈ db.targets, r.id ≠ "t_".toList ++ uuid1)
    (hk2 : k2 = k ∨ (k2 = [] ∧ ∀ tid, k ≠ [] → selectKey db k = some tid →
      ∃ row ∈ db.targets, row.id = tid ∧ row.url = u)) :
    ∃ t1 isNew1 db1 err t2 db2,
      CreateTarget db uuid1 now1 u k = (db1, some t1, isNew1, err) ∧
      CreateTarget db1 uuid2 now2 u k2 = (db2, some t2, false, err) ∧
      t2.ID = t1.ID ∧
      ((∀ tid, k ≠ [] → selectKey db k = some tid → ∃ row ∈ db.targets, row.id = tid) →
        err = none) := by
  by_cases hsel : k ≠ [] ∧ ∃ tid, selectKey db k = some tid
  · -- the key is already recorded: both calls return the mapped target
    obtain ⟨hk, tid, htid⟩ := hsel
    have h1 := CreateTarget_key_some db uuid1 now1 u k tid hk htid
    have hres : (∃ row ∈ db.targets, row.id = tid) → (getTarget db tid).2 = none := by
      rintro ⟨row, hrow, hrid⟩
      have hbyid : selectTargetById db tid = some row := by
        have := find_of_mem_nodup (fun y : TargetRow => y.id) db.targets hv.id_unique row hrow
        rw [← hrid]; exact this
      rw [getTarget_of_select db tid row hbyid]
    rcases hk2 with h | ⟨h, hkey⟩
    · subst h
      have h2 := CreateTarget_key_some db uuid2 now2 u k2 tid hk htid
      exact ⟨_, _, _, _, _, _, h1, h2, rfl, fun hri => hres (hri tid hk htid)⟩
    · subst h
      obtain ⟨row, hrow, hrid, hrurl⟩ := hkey tid hk htid
      have hbyid : selectTargetById db tid = some row := by
        have := find_of_mem_nodup (fun y : TargetRow => y.id) db.targets hv.id_unique row hrow
        rw [← hrid]; exact this
      have hbyurl : selectTargetByUrl db u = some row := by
        have := find_of_mem_nodup (fun y : TargetRow => y.url) db.targets hv.url_unique row hrow
        rw [← hrurl]; exact this
      rw [getTarget_of_select db tid row hbyid] at h1
      have h2 := CreateTarget_no_key db uuid2 now2 u
      rw [createTargetInsert_existing db _ now2 u row hbyurl] at h2
      exact ⟨_, _, _, _, _, _, h1, h2, hrid, fun _ => rfl⟩
  · -- the first call goes through the insert
    have hnone : k ≠ [] → selectKey db k = none := by
      intro hk
      cases hs : selectKey db k with
      | none => rfl
      | some tid => exact absurd ⟨hk, tid, hs⟩ hsel
    have hfirst : CreateTarget db uuid1 now1 u k =
        createTargetInsert db ("t_".toList ++ uuid1) now1 u k := by
      by_cases hk : k = []
      · subst hk; exact CreateTarget_no_key db uuid1 now1 u
      · exact CreateTarget_key_none db uuid1 now1 u k hk (hnone hk)
    obtain ⟨r, isNew, db1, hins, hurl, hbyurl, hbyid, hkeyrec, _⟩ :=
      createTargetInsert_spec db ("t_".toList ++ uuid1) now1 u k hv.id_unique hfresh
    rw [hins] at hfirst
    have hnokey : CreateTarget db1 uuid2 now2 u [] =
        (db1, some { ID := r.id, URL := u, CreatedAt := r.created_at }, false, none) := by
      rw [CreateTarget_no_key, createTargetInsert_existing db1 _ now2 u r hbyurl]
    by_cases hk : k = []
    · have hk2' : k2 = [] := by
        rcases hk2 with h | ⟨h, _⟩
        · rw [h, hk]
        · exact h
      subst hk2'
      exact ⟨_, _, _, _, _, _, hfirst, hnokey, rfl, fun _ => rfl⟩
    · rcases hk2 with h | ⟨h, _⟩
      · subst h
        have h2 := CreateTarget_key_some db1 uuid2 now2 u k2 r.id hk (hkeyrec hk (hnone hk))
        rw [getTarget_of_select db1 r.id r hbyid] at h2
        exact ⟨_, _, _, _, _, _, hfirst, h2, rfl, fun _ => rfl⟩
      · subst h
        exact ⟨_, _, _, _, _, _, hfirst, hnokey, rfl, fun _ => rfl⟩

/-- C8: in every store state satisfying the schema constraints, for a fresh
generated id, a non-empty key `k` not yet recorded and two different URLs
`u1`, `u2`: `CreateTarget(u1, k)` succeeds and returns a target with
`url = u1`; `CreateTarget(u2, k)` then returns the same target with
`isNew = false` and leaves the whole database unchanged; no row for `u2`
exists afterwards unless it existed before both calls. -/
theorem CreateTarget_same_key (db : DB) (uuid1 uuid2 : Str) (now1 now2 : Nat) (u1 u2 k : Str)
    (hv : db.Valid)
    (hfresh : ∀ r ∈ db.targets, r.id ≠ "t_".toList ++ uuid1)
    (hk : k ≠ [])
    (hnew : ∀ r ∈ db.idempotency_keys, r.key ≠ k)
    (hne : u1 ≠ u2) :
    ∃ t1 isNew1 db1,
      CreateTarget db uuid1 now1 u1 k = (db1, some t1, isNew1, none) ∧
      t1.URL = u1 ∧
      CreateTarget db1 uuid2 now2 u2 k = (db1, some t1, false, none) ∧
      (∀ x ∈ db1.targets, x.url = u2 → x ∈ db.targets) := by
  have hnone := selectKey_none_of_free db k hnew
  obtain ⟨r, isNew, db1, hins, hurl, _, hbyid, hkeyrec, htargets⟩ :=
    createTargetInsert_spec db ("t_".toList ++ uuid1) now1 u1 k hv.id_unique hfresh
  have h1 := CreateTarget_key_none db uuid1 now1 u1 k hk hnone
  rw [hins] at h1
  have h2 := CreateTarget_key_some db1 uuid2 now2 u2 k r.id hk (hkeyrec hk hnone)
  rw [getTarget_of_select db1 r.id r hbyid, hurl] at h2
  refine ⟨_, _, _, h1, rfl, h2, ?_⟩
  intro x hx hxu
  rcases htargets x hx with h | h
  · exact h
  · exact absurd (h.symm.trans hxu) hne

/-- C7 (witness): `CreateTarget_twice` in the state where key `k1` is recorded
for the target of `https://b.com`, registering `https://a.com` with `k1`
twice. -/
theorem CreateTarget_twice_witness :
    ∃ t1 isNew1 db1 err t2 db2,
      CreateTarget dbKeyTaken "x".toList 5 "https://a.com".toList "k1".toList =
        (db1, some t1, isNew1, err) ∧
      CreateTarget db1 "y".toList 6 "https://a.com".toList "k1".toList =
        (db2, some t2, false, err) ∧
      t2.ID = t1.ID ∧
      ((∀ tid, "k1".toList ≠ [] → selectKey dbKeyTaken "k1".toList = some tid →
        ∃ row ∈ dbKeyTaken.targets, row.id = tid) → err = none) :=
  CreateTarget_twice dbKeyTaken "x".toList "y".toList 5 6 "https://a.com".toList "k1".toList
    "k1".toList ⟨by decide, by decide, by decide⟩ (by decide) (Or.inl rfl)

/-- C8 (witness): `CreateTarget_same_key` in a state with two targets and no
key, for `https://c.com` then `https://d.com` under key `k1`. -/
theorem CreateTarget_same_key_witness :
    ∃ t1 isNew1 db1,
      CreateTarget dbSameSecond "x".toList 5 "https://c.com".toList "k1".toList =
        (db1, some t1, isNew1, none) ∧
      t1.URL = "https://c.com".toList ∧
      CreateTarget db1 "y".toList 6 "https://d.com".toList "k1".toList =
        (db1, some t1, false, none) ∧
      (∀ x ∈ db1.targets, x.url = "https://d.com".toList → x ∈ dbSameSecond.targets) :=
  CreateTarget_same_key dbSameSecond "x".toList "y".toList 5 6 "https://c.com".toList
    "https://d.com".toList "k1".toList
    ⟨by decide, by decide, by decide⟩ (by decide) (by decide) (by decide) (by decide)

/-- C9 (evaluation at the failing input): with targets `https://a.com`,
`https://a.com.evil.org` and `https://a.community`, `ListTargets("a.com", 10,
"")` returns all three, although the hosts of the last two are
`a.com.evil.org` and `a.community`. -/
theorem ListTargets_host_substring :
    (ListTargets dbHosts "a.com".toList 10 none).map (fun r => (r.1.map fun t => t.URL, r.2)) =
      Except.ok (["https://a.com".toList, "https://a.com.evil.org".toList,
        "https://a.community".toList], none) ∧
    (url.Parse "https://a.com.evil.org".toList).map (fun u => u.Host) =
      Except.ok "a.com.evil.org".toList ∧
    (url.Parse "https://a.community".toList).map (fun u => u.Host) =
      Except.ok "a.community".toList := by
  refine ⟨rfl, rfl, rfl⟩

end storage

namespace url

theorem setPath_fields {u v : URL} {p : Str} (h : URL.setPath u p = Except.ok v) :
    v.Scheme = u.Scheme ∧ v.RawQuery = u.RawQuery ∧ v.User = u.User ∧ v.Host = u.Host := by
  unfold URL.setPath at h
  split at h
  · cases h
  · split at h <;> (cases h; simp)

theorem setFragment_scheme {u v : URL} {f : Str} (h : URL.setFragment u f = Except.ok v) :
    v.Scheme = u.Scheme := by
  unfold URL.setFragment at h
  split at h
  · cases h
  · split at h <;> (cases h; rfl)

theorem parseRest_scheme {scheme rest : Str} {viaRequest : Bool} {u : URL}
    (h : parseRest scheme rest viaRequest = Except.ok u) : u.Scheme = scheme := by
  unfold parseRest at h
  simp only at h
  repeat' split at h
  all_goals first
    | exact (setPath_fields h).1
    | (cases h; rfl)
    | cases h

theorem parse_scheme {rawURL : Str} {viaRequest : Bool} {u : URL}
    (h : parse rawURL viaRequest = Except.ok u) :
    ∃ scheme rest, getScheme rawURL = Except.ok (scheme, rest) ∧
      u.Scheme = strings.ToLower scheme := by
  unfold parse at h
  split_ifs at h with h1 h2 h3
  · have h3' : rawURL = ['*'] := by simpa using h3
    subst h3'
    cases h
    exact ⟨[], ['*'], rfl, rfl⟩
  · split at h
    · cases h
    · rename_i scheme rest hg
      exact ⟨scheme, rest, hg, parseRest_scheme h⟩

theorem Parse_scheme {rawURL : Str} {u : URL} (h : Parse rawURL = Except.ok u) :
    u.Scheme = strings.ToLower (rawScheme rawURL) := by
  unfold Parse at h
  split at h
  · cases h
  · rename_i v hv
    obtain ⟨scheme, rest, hg, hs⟩ := parse_scheme hv
    have hr : rawScheme rawURL = scheme := by simp [rawScheme, hg]
    split_ifs at h
    · cases h; rw [hr]; exact hs
    · rw [setFragment_scheme h, hr]; exact hs

end url

namespace strings

theorem TrimRight_spec (s : Str) (b : Char) :
    ∃ k, s = TrimRight s b ++ List.replicate k b ∧ (TrimRight s b).getLast? ≠ some b := by
  refine ⟨(s.reverse.takeWhile fun c => c == b).length, ?_, ?_⟩
  · have h1 := List.takeWhile_append_dropWhile (fun c => c == b) s.reverse
    have h2 : (s.reverse.takeWhile fun c => c == b).reverse =
        List.replicate (s.reverse.takeWhile fun c => c == b).length b := by
      rw [List.eq_replicate_iff]
      refine ⟨by simp, fun c hc => ?_⟩
      simpa using List.mem_takeWhile_imp (List.mem_reverse.mp hc)
    calc s = s.reverse.reverse := by simp
      _ = ((s.reverse.takeWhile fun c => c == b) ++
            (s.reverse.dropWhile fun c => c == b)).reverse := by rw [h1]
      _ = (s.reverse.dropWhile fun c => c == b).reverse ++
            (s.reverse.takeWhile fun c => c == b).reverse := List.reverse_append _ _
      _ = _ := by rw [h2]; rfl
  · unfold TrimRight
    rw [List.getLast?_reverse]
    intro hh
    cases hd : (s.reverse.dropWhile fun c => c == b) with
    | nil => rw [hd] at hh; simp at hh
    | cons x xs =>
      rw [hd] at hh
      have hx : x = b := by simpa using hh
      have := List.head_dropWhile_not (fun c => c == b) s.reverse (by rw [hd]; simp)
      simp [hd, hx] at this

theorem Cut_of_not_mem : ∀ (s : Str) (sep : Char), sep ∉ s → Cut s sep = (s, [], false)
  | [], _, _ => rfl
  | c :: s, sep, h => by
    have hc : (c == sep) = false := by
      rw [beq_eq_false_iff_ne]; intro e; exact h (e ▸ List.mem_cons_self _ _)
    have ih := Cut_of_not_mem s sep (fun hm => h (List.mem_cons_of_mem _ hm))
    simp [Cut, hc, ih]

theorem Cut_append : ∀ (a b : Str) (sep : Char), sep ∉ a → Cut (a ++ sep :: b) sep = (a, b, true)
  | [], b, sep, _ => by simp [Cut]
  | c :: a, b, sep, h => by
    have hc : (c == sep) = false := by
      rw [beq_eq_false_iff_ne]; intro e; exact h (e ▸ List.mem_cons_self _ _)
    have ih := Cut_append a b sep (fun hm => h (List.mem_cons_of_mem _ hm))
    simp [Cut, hc, ih]

theorem Cut_fst_not_mem : ∀ (s : Str) (sep : Char), sep ∉ (Cut s sep).1
  | [], _ => by simp [Cut]
  | c :: s, sep => by
    by_cases hc : c = sep
    · simp [Cut, hc]
    · have hb : (c == sep) = false := by rw [beq_eq_false_iff_ne]; exact hc
      have ih := Cut_fst_not_mem s sep
      simp only [Cut, hb, Bool.false_eq_true, if_false, List.mem_cons, not_or]
      exact ⟨fun e => hc e.symm, ih⟩

theorem Cut_fst_subset : ∀ (s : Str) (sep c : Char), c ∈ (Cut s sep).1 → c ∈ s
  | [], _, _ => by simp [Cut]
  | d :: s, sep, c => by
    by_cases hd : d = sep
    · simp [Cut, hd]
    · have hb : (d == sep) = false := by rw [beq_eq_false_iff_ne]; exact hd
      have ih := Cut_fst_subset s sep c
      simp only [Cut, hb, Bool.false_eq_true, if_false, List.mem_cons]
      rintro (h | h)
      · exact Or.inl h
      · exact Or.inr (ih h)

theorem Cut_snd_subset : ∀ (s : Str) (sep c : Char), c ∈ (Cut s sep).2.1 → c ∈ s
  | [], _, _ => by simp [Cut]
  | d :: s, sep, c => by
    by_cases hd : d = sep
    · simp only [Cut, hd, beq_self_eq_true, if_true, List.mem_cons]
      exact fun h => Or.inr h
    · have hb : (d == sep) = false := by rw [beq_eq_false_iff_ne]; exact hd
      have ih := Cut_snd_subset s sep c
      simp only [Cut, hb, Bool.false_eq_true, if_false, List.mem_cons]
      exact fun h => Or.inr (ih h)

theorem HasPrefix_singleton (s : Str) (c : Char) :
    HasPrefix s [c] = true ↔ s.head? = some c := by
  cases s with
  | nil => simp [HasPrefix]
  | cons d s => cases s <;> simp [HasPrefix]

theorem HasPrefix_append (p t : Str) : HasPrefix (p ++ t) p = true := by
  induction p with
  | nil => cases t <;> rfl
  | cons c p ih => simp [HasPrefix, ih]

theorem Contains_singleton : ∀ (s : Str) (c : Char), Contains s [c] = true ↔ c ∈ s
  | [], c => by simp [Contains]
  | d :: s, c => by
    have ih := Contains_singleton s c
    have hp : HasPrefix (d :: s) [c] = true ↔ d = c := by
      rw [HasPrefix_singleton]; simp
    simp only [Contains, Bool.or_eq_true, hp, ih, List.mem_cons]
    constructor
    · rintro (h | h)
      · exact Or.inl h.symm
      · exact Or.inr h
    · rintro (h | h)
      · exact Or.inl h.symm
      · exact Or.inr h

theorem HasSuffix_singleton (s : Str) (c : Char) :
    HasSuffix s [c] = true ↔ s.getLast? = some c := by
  unfold HasSuffix
  rw [List.reverse_singleton, HasPrefix_singleton, List.head?_reverse]

theorem Count_append (a b : Str) (c : Char) : Count (a ++ b) c = Count a c + Count b c := by
  simp [Count]

theorem Count_of_not_mem (a : Str) (c : Char) (h : c ∉ a) : Count a c = 0 := by
  unfold Count
  rw [List.length_eq_zero, List.filter_eq_nil_iff]
  intro x hx hxc
  have : x = c := by simpa using hxc
  exact h (this ▸ hx)

theorem Count_pos_of_mem (a : Str) (c : Char) (h : c ∈ a) : 0 < Count a c := by
  unfold Count
  rw [List.length_pos]
  intro he
  rw [List.filter_eq_nil_iff] at he
  exact he c h (by simp)

theorem IndexByte_of_not_mem : ∀ (s : Str) (c : Char), c ∉ s → IndexByte s c = none
  | [], _, _ => rfl
  | d :: s, c, h => by
    have hd : (d == c) = false := by
      rw [beq_eq_false_iff_ne]; intro e; exact h (e ▸ List.mem_cons_self _ _)
    have ih := IndexByte_of_not_mem s c (fun hm => h (List.mem_cons_of_mem _ hm))
    simp [IndexByte, hd, ih]

theorem IndexByte_append : ∀ (a b : Str) (c : Char), c ∉ a →
    IndexByte (a ++ c :: b) c = some a.length
  | [], b, c, _ => by simp [IndexByte]
  | d :: a, b, c, h => by
    have hd : (d == c) = false := by
      rw [beq_eq_false_iff_ne]; intro e; exact h (e ▸ List.mem_cons_self _ _)
    have ih := IndexByte_append a b c (fun hm => h (List.mem_cons_of_mem _ hm))
    simp [IndexByte, hd, ih]

theorem IndexByte_drop : ∀ (s : Str) (c : Char) (i : Nat), IndexByte s c = some i →
    (s.drop i).head? = some c
  | [], _, _, h => by simp [IndexByte] at h
  | d :: s, c, i, h => by
    by_cases hd : d = c
    · simp [IndexByte, hd] at h
      subst h
      simp [hd]
    · have hb : (d == c) = false := by rw [beq_eq_false_iff_ne]; exact hd
      simp only [IndexByte, hb, Bool.false_eq_true, if_false, Option.map_eq_some'] at h
      obtain ⟨j, hj, rfl⟩ := h
      simpa using IndexByte_drop s c j hj

theorem LastIndexByte_of_not_mem : ∀ (s : Str) (c : Char), c ∉ s → LastIndexByte s c = none
  | [], _, _ => rfl
  | d :: s, c, h => by
    have hd : (d == c) = false := by
      rw [beq_eq_false_iff_ne]; intro e; exact h (e ▸ List.mem_cons_self _ _)
    have ih := LastIndexByte_of_not_mem s c (fun hm => h (List.mem_cons_of_mem _ hm))
    simp [LastIndexByte, hd, ih]

theorem LastIndexByte_append : ∀ (a b : Str) (c : Char), c ∉ b →
    LastIndexByte (a ++ c :: b) c = some a.length
  | [], b, c, h => by
    simp [LastIndexByte, LastIndexByte_of_not_mem b c h]
  | d :: a, b, c, h => by
    have ih := LastIndexByte_append a b c h
    simp [LastIndexByte, ih]

theorem TrimRight_head (s : Str) (b : Char) (h : TrimRight s b ≠ []) :
    (TrimRight s b).head? = s.head? := by
  obtain ⟨k, hk, _⟩ := TrimRight_spec s b
  cases ht : TrimRight s b with
  | nil => exact absurd ht h
  | cons x xs =>
    rw [ht] at hk
    rw [hk]
    rfl

theorem TrimRight_subset (s : Str) (b c : Char) (h : c ∈ TrimRight s b) : c ∈ s := by
  obtain ⟨k, hk, _⟩ := TrimRight_spec s b
  rw [hk]
  exact List.mem_append_left _ h

end strings

namespace url

open encoding

theorem toNat_ofNat_byte (n : Nat) (h : n < 256) : (Char.ofNat n).toNat = n := by
  have hv : n.isValidChar := Or.inl (by omega)
  unfold Char.ofNat
  rw [dif_pos hv]
  simp [Char.ofNatAux, Char.toNat, UInt32.toNat]

theorem upperhex_spec : ∀ k < 16, ishex (upperhex k) = true ∧ unhex (upperhex k) = k ∧
    upperhex k ≠ '/' ∧ upperhex k ≠ '?' ∧ upperhex k ≠ '#' ∧ upperhex k ≠ '@' ∧
    upperhex k ≠ ':' ∧ upperhex k ≠ '%' := by
  decide

theorem shouldEscape_percent (m : encoding) : shouldEscape '%' m = true := by
  cases m <;> decide

theorem shouldEscape_hash (m : encoding) : shouldEscape '#' m = true := by
  cases m <;> decide

theorem escape_cons (c : Char) (s : Str) (m : encoding) :
    escape (c :: s) m =
      (if shouldEscape c m then
        if c == ' ' && m == encodeQueryComponent then ['+']
        else ['%', upperhex (c.toNat / 16 % 16), upperhex (c.toNat % 16)]
      else [c]) ++ escape s m := by
  simp [escape]

theorem escape_nil (m : encoding) : escape [] m = [] := rfl

/-- A byte that must be escaped in mode `m` and is neither `%`, `+` nor a hex
digit does not occur in the output of `escape`. -/
theorem not_mem_escape (x : Char) (m : encoding) (hx : shouldEscape x m = true)
    (hp : x ≠ '%') (hplus : x ≠ '+') (hhex : ∀ k < 16, upperhex k ≠ x) :
    ∀ s : Str, x ∉ escape s m
  | [] => by simp [escape_nil]
  | c :: s => by
    rw [escape_cons]
    intro hm
    rcases List.mem_append.mp hm with h | h
    · split_ifs at h with h1 h2
      · simp at h; exact hplus h
      · simp only [List.mem_cons, List.mem_singleton, List.not_mem_nil, or_false] at h
        rcases h with h | h | h
        · exact hp h
        · exact hhex _ (Nat.mod_lt _ (by norm_num)) h.symm
        · exact hhex _ (Nat.mod_lt _ (by norm_num)) h.symm
      · simp only [List.mem_singleton] at h
        subst h
        exact h1 hx
    · exact not_mem_escape x m hx hp hplus hhex s h

theorem hash_not_mem_escape (s : Str) (m : encoding) : '#' ∉ escape s m :=
  not_mem_escape '#' m (shouldEscape_hash m) (by decide) (by decide)
    (fun k hk => (upperhex_spec k hk).2.2.2.2.1) s

theorem question_not_mem_escape (s : Str) (m : encoding)
    (hm : m = encodePath ∨ m = encodeHost ∨ m = encodeUserPassword) : '?' ∉ escape s m :=
  not_mem_escape '?' m (by rcases hm with h | h | h <;> (subst h; decide)) (by decide)
    (by decide) (fun k hk => (upperhex_spec k hk).2.2.2.1) s

theorem slash_not_mem_escape (s : Str) (m : encoding)
    (hm : m = encodeHost ∨ m = encodeUserPassword) : '/' ∉ escape s m :=
  not_mem_escape '/' m (by rcases hm with h | h <;> (subst h; decide)) (by decide)
    (by decide) (fun k hk => (upperhex_spec k hk).2.2.1) s

theorem at_not_mem_escape (s : Str) (m : encoding)
    (hm : m = encodeHost ∨ m = encodeUserPassword) : '@' ∉ escape s m :=
  not_mem_escape '@' m (by rcases hm with h | h <;> (subst h; decide)) (by decide)
    (by decide) (fun k hk => (upperhex_spec k hk).2.2.2.2.2.1) s

theorem colon_not_mem_escape (s : Str) : ':' ∉ escape s encodeUserPassword :=
  not_mem_escape ':' _ (by decide) (by decide) (by decide)
    (fun k hk => (upperhex_spec k hk).2.2.2.2.2.2.1) s

theorem byte_split (n : Nat) (h : n < 256) : n / 16 % 16 * 16 + n % 16 = n := by
  omega

/-- Outside the host, zone and query-component modes `unescape` undoes
`escape` on byte strings. -/
theorem unescape_escape (m : encoding) (h1 : m ≠ encodeHost) (h2 : m ≠ encodeZone)
    (h3 : m ≠ encodeQueryComponent) :
    ∀ s : Str, Bytes s → unescapeCheck m (escape s m) = Except.ok () ∧
      unescapeDecode m (escape s m) = s
  | [], _ => ⟨rfl, rfl⟩
  | c :: s, hb => by
    have ih := unescape_escape m h1 h2 h3 s (fun x hx => hb x (List.mem_cons_of_mem _ hx))
    have hc : c.toNat < 256 := hb c (List.mem_cons_self _ _)
    have e1 : (m == encodeHost) = false := by rw [beq_eq_false_iff_ne]; exact h1
    have e2 : (m == encodeZone) = false := by rw [beq_eq_false_iff_ne]; exact h2
    have e3 : (m == encodeQueryComponent) = false := by rw [beq_eq_false_iff_ne]; exact h3
    rw [escape_cons]
    by_cases hs : shouldEscape c m = true
    · obtain ⟨x1, x2, -⟩ := upperhex_spec (c.toNat / 16 % 16) (Nat.mod_lt _ (by norm_num))
      obtain ⟨y1, y2, -⟩ := upperhex_spec (c.toNat % 16) (Nat.mod_lt _ (by norm_num))
      simp only [hs, if_true, e3, Bool.and_false, Bool.false_eq_true, if_false,
        List.cons_append, List.nil_append]
      constructor
      · simp only [unescapeCheck, beq_self_eq_true, if_true, x1, y1, Bool.not_true,
          Bool.or_self, Bool.false_eq_true, if_false, e1, e2, Bool.false_and]
        exact ih.1
      · simp only [unescapeDecode, beq_self_eq_true, if_true, x2, y2, byte_split _ hc,
          Char.ofNat_toNat, ih.2]
    · have hs' : shouldEscape c m = false := by simpa using hs
      have hcp : (c == '%') = false := by
        rw [beq_eq_false_iff_ne]; intro e; subst e
        rw [shouldEscape_percent] at hs'; cases hs'
      simp only [hs', Bool.false_eq_true, if_false, List.cons_append, List.nil_append]
      constructor
      · rw [unescapeCheck.eq_def]
        simp only [hcp, Bool.false_eq_true, if_false, e1, e2, Bool.or_self, Bool.false_and]
        exact ih.1
      · rw [unescapeDecode.eq_def]
        simp only [hcp, Bool.false_eq_true, if_false, e3, Bool.and_false, ih.2]

theorem unescape_escape_ok (m : encoding) (hm : m = encodePath ∨ m = encodeUserPassword)
    (s : Str) (hb : Bytes s) : unescape (escape s m) m = Except.ok s := by
  have h := unescape_escape m (by rcases hm with h | h <;> (subst h; decide))
    (by rcases hm with h | h <;> (subst h; decide))
    (by rcases hm with h | h <;> (subst h; decide)) s hb
  unfold unescape
  rw [h.1, h.2]

theorem unescape_ok_iff (s t : Str) (m : encoding) :
    unescape s m = Except.ok t ↔ unescapeCheck m s = Except.ok () ∧ unescapeDecode m s = t := by
  unfold unescape
  split <;> rename_i h <;> simp [h]

theorem parseRest_cases (scheme rest0 : Str) (u : URL) (hs : scheme ≠ [])
    (h : parseRest scheme rest0 false = Except.ok u) :
    ∃ (fq : Bool) (rest rq : Str),
      fq = (strings.HasSuffix rest0 ['?'] && strings.Count rest0 '?' == 1) ∧
      rest = (if fq then rest0.dropLast else (strings.Cut rest0 '?').1) ∧
      rq = (if fq then [] else (strings.Cut rest0 '?').2.1) ∧
      ((strings.HasPrefix rest ['/'] = false ∧
          u = { Scheme := scheme, Opaque := rest, ForceQuery := fq, RawQuery := rq }) ∨
        (strings.HasPrefix rest "//".toList = true ∧
          ∃ user host,
            parseAuthority
              (match strings.IndexByte (rest.drop 2) '/' with
                | some i => (rest.drop 2).take i
                | none => rest.drop 2) = Except.ok (user, host) ∧
            URL.setPath { Scheme := scheme, User := user, Host := host, ForceQuery := fq, RawQuery := rq }
              (match strings.IndexByte (rest.drop 2) '/' with
                | some i => (rest.drop 2).drop i
                | none => []) = Except.ok u) ∨
        (strings.HasPrefix rest ['/'] = true ∧ strings.HasPrefix rest "//".toList = false ∧
          URL.setPath { Scheme := scheme, OmitHost := true, ForceQuery := fq, RawQuery := rq }
            rest = Except.ok u)) := by
  refine ⟨_, _, _, rfl, rfl, rfl, ?_⟩
  unfold parseRest at h
  dsimp only at h
  have hsb : (scheme != []) = true := by simpa using hs
  generalize (if (strings.HasSuffix rest0 ['?'] && strings.Count rest0 '?' == 1) = true then
    rest0.dropLast else (strings.Cut rest0 '?').1) = rest at h ⊢
  generalize (if (strings.HasSuffix rest0 ['?'] && strings.Count rest0 '?' == 1) = true then
    ([] : Str) else (strings.Cut rest0 '?').2.1) = rq at h ⊢
  generalize (strings.HasSuffix rest0 ['?'] && strings.Count rest0 '?' == 1) = fq at h ⊢
  by_cases c1 : strings.HasPrefix rest ['/'] = true
  · by_cases c2 : strings.HasPrefix rest "//".toList = true
    · right; left
      refine ⟨c2, ?_⟩
      simp only [c1, c2, hsb, Bool.not_true, Bool.false_and, Bool.false_eq_true, if_false,
        Bool.true_or, Bool.and_self, if_true] at h
      split at h
      · cases h
      · rename_i user host hpa
        exact ⟨user, host, hpa, h⟩
    · right; right
      have c2' : strings.HasPrefix rest "//".toList = false := by simpa using c2
      refine ⟨c1, c2', ?_⟩
      simp only [c1, c2', hsb, Bool.not_true, Bool.false_and, Bool.false_eq_true, if_false,
        Bool.and_false, Bool.and_self, if_true] at h
      exact h
  · left
    have c1' : strings.HasPrefix rest ['/'] = false := by simpa using c1
    refine ⟨c1', ?_⟩
    simp only [c1', hsb, Bool.not_false, Bool.and_self, if_true] at h
    cases h
    rfl

theorem unhex_lt (c : Char) : unhex c < 16 := by
  unfold unhex
  split_ifs with h1 h2 h3
  · have : c.toNat ≤ 57 := h1.2
    omega
  · have : c.toNat ≤ 102 := h2.2
    omega
  · have : c.toNat ≤ 70 := h3.2
    omega
  · omega

theorem unescapeDecode_bytes (m : encoding) : ∀ s : Str, Bytes s → Bytes (unescapeDecode m s)
  | [], _ => by intro c hc; simp [unescapeDecode] at hc
  | [c], hb => by
    intro x hx
    rw [unescapeDecode.eq_def] at hx
    dsimp only at hx
    split_ifs at hx
    · simp at hx
    · simp [unescapeDecode] at hx; subst hx; decide
    · simp [unescapeDecode] at hx; subst hx; exact hb _ (List.mem_cons_self _ _)
  | [c, a], hb => by
    have ih := unescapeDecode_bytes m [a] (fun x hx => hb x (List.mem_cons_of_mem _ hx))
    intro x hx
    rw [unescapeDecode.eq_def] at hx
    dsimp only at hx
    split_ifs at hx
    · simp at hx
    · rcases List.mem_cons.mp hx with h | h
      · subst h; decide
      · exact ih x h
    · rcases List.mem_cons.mp hx with h | h
      · subst h; exact hb _ (List.mem_cons_self _ _)
      · exact ih x h
  | c :: a :: b :: rest2, hb => by
    have ih1 := unescapeDecode_bytes m (a :: b :: rest2)
      (fun x hx => hb x (List.mem_cons_of_mem _ hx))
    have ih2 := unescapeDecode_bytes m rest2
      (fun x hx => hb x (List.mem_cons_of_mem _ (List.mem_cons_of_mem _
        (List.mem_cons_of_mem _ hx))))
    intro x hx
    rw [unescapeDecode.eq_def] at hx
    dsimp only at hx
    split_ifs at hx
    · rcases List.mem_cons.mp hx with h | h
      · subst h
        rw [toNat_ofNat_byte]
        · have := unhex_lt a; have := unhex_lt b; omega
        · have := unhex_lt a; have := unhex_lt b; omega
      · exact ih2 x h
    · rcases List.mem_cons.mp hx with h | h
      · subst h; decide
      · exact ih1 x h
    · rcases List.mem_cons.mp hx with h | h
      · subst h; exact hb _ (List.mem_cons_self _ _)
      · exact ih1 x h

theorem unescape_bytes (s t : Str) (m : encoding) (hb : Bytes s)
    (h : unescape s m = Except.ok t) : Bytes t := by
  rw [unescape_ok_iff] at h
  rw [← h.2]
  exact unescapeDecode_bytes m s hb

theorem unescapeDecode_slash (m : encoding) (s : Str) :
    unescapeDecode m ('/' :: s) = '/' :: unescapeDecode m s := by
  rw [unescapeDecode.eq_def]
  simp

theorem unescape_head (s t : Str) (m : encoding) (hs : s = [] ∨ s.head? = some '/')
    (h : unescape s m = Except.ok t) : t = [] ∨ t.head? = some '/' := by
  rw [unescape_ok_iff] at h
  rcases hs with hs | hs
  · subst hs
    left
    rw [← h.2]; rfl
  · right
    cases s with
    | nil => simp at hs
    | cons c s =>
      have hc : c = '/' := by simpa using hs
      subst hc
      rw [← h.2, unescapeDecode_slash]
      rfl

theorem unescape_eq_nil (s : Str) (m : encoding) (h : unescape s m = Except.ok []) : s = [] := by
  rw [unescape_ok_iff] at h
  obtain ⟨h1, h2⟩ := h
  cases s with
  | nil => rfl
  | cons c rest =>
    exfalso
    rw [unescapeDecode.eq_def] at h2
    rw [unescapeCheck.eq_def] at h1
    dsimp only at h1 h2
    split_ifs at h1 h2 with hc
    · cases rest with
      | nil => simp at h1
      | cons a r =>
        cases r with
        | nil => simp at h1
        | cons b r2 => simp at h2

theorem setPath_inv {u v : URL} {p : Str} (h : URL.setPath u p = Except.ok v) :
    ∃ path rp, unescape p encodePath = Except.ok path ∧ (rp = [] ∨ rp = p) ∧
      v = { u with Path := path, RawPath := rp } := by
  unfold URL.setPath at h
  split at h
  · cases h
  · rename_i path hpath
    split at h
    · cases h
      exact ⟨path, [], hpath, Or.inl rfl, rfl⟩
    · cases h
      exact ⟨path, p, hpath, Or.inr rfl, rfl⟩

theorem setFragment_inv {u v : URL} {f : Str} (h : URL.setFragment u f = Except.ok v) :
    ∃ a b, v = { u with Fragment := a, RawFragment := b } := by
  unfold URL.setFragment at h
  split at h
  · cases h
  · split at h <;> (cases h; exact ⟨_, _, rfl⟩)

theorem parseUserinfo_inv (s : Str) (ui : Userinfo) (hb : Bytes s)
    (h : parseUserinfo s = Except.ok ui) :
    Bytes ui.username ∧ Bytes ui.password ∧ (ui.passwordSet = false → ui.password = []) := by
  unfold parseUserinfo at h
  split_ifs at h with h1 h2
  · cases hu : unescape s encodeUserPassword with
    | error e => simp [hu, bind, Except.bind] at h
    | ok username =>
      simp [hu, bind, Except.bind, pure, Except.pure] at h
      subst h
      exact ⟨unescape_bytes s username _ hb hu, fun c hc => by simp at hc, fun _ => rfl⟩
  · cases hu : unescape (strings.Cut s ':').1 encodeUserPassword with
    | error e => simp [hu, bind, Except.bind] at h
    | ok username =>
      cases hw : unescape (strings.Cut s ':').2.1 encodeUserPassword with
      | error e => simp [hu, hw, bind, Except.bind] at h
      | ok password =>
        simp [hu, hw, bind, Except.bind, pure, Except.pure] at h
        subst h
        refine ⟨unescape_bytes _ username _ ?_ hu, unescape_bytes _ password _ ?_ hw,
          fun hf => by simp at hf⟩
        · exact fun c hc => hb c (strings.Cut_fst_subset s ':' c hc)
        · exact fun c hc => hb c (strings.Cut_snd_subset s ':' c hc)

theorem parseAuthority_inv (a : Str) (user : Option Userinfo) (host : Str) (hb : Bytes a)
    (h : parseAuthority a = Except.ok (user, host)) :
    ∀ ui, user = some ui →
      Bytes ui.username ∧ Bytes ui.password ∧ (ui.passwordSet = false → ui.password = []) := by
  unfold parseAuthority at h
  split at h
  · cases hh : parseHost a with
    | error e => simp [hh, bind, Except.bind] at h
    | ok x =>
      simp [hh, bind, Except.bind, pure, Except.pure] at h
      intro ui hui
      rw [← h.1] at hui
      cases hui
  · rename_i i hi
    cases hh : parseHost (a.drop (i + 1)) with
    | error e => simp [hh, bind, Except.bind] at h
    | ok x =>
      cases hu : parseUserinfo (a.take i) with
      | error e => simp [hh, hu, bind, Except.bind] at h
      | ok ui0 =>
        simp [hh, hu, bind, Except.bind, pure, Except.pure] at h
        intro ui hui
        rw [← h.1] at hui
        cases hui
        exact parseUserinfo_inv _ _ (fun c hc => hb c (List.mem_of_mem_take hc)) hu

theorem getSchemeLoop_subset (rawURL : Str) :
    ∀ (rem : Str) (i : Nat) (scheme rest : Str), (∀ c ∈ rem, c ∈ rawURL) →
      getSchemeLoop rawURL i rem = Except.ok (scheme, rest) → ∀ c ∈ rest, c ∈ rawURL
  | [], i, scheme, rest, _, h => by
    simp [getSchemeLoop, pure, Except.pure] at h
    rw [← h.2]; exact fun c hc => hc
  | d :: rem, i, scheme, rest, hsub, h => by
    have ih := getSchemeLoop_subset rawURL rem (i + 1) scheme rest
      (fun c hc => hsub c (List.mem_cons_of_mem _ hc))
    rw [getSchemeLoop] at h
    split_ifs at h
    all_goals first
      | exact ih h
      | (cases h
         first
          | done
          | exact fun c hc => hc
          | exact fun c hc => hsub c (List.mem_cons_of_mem _ hc))

theorem getScheme_subset (rawURL scheme rest : Str)
    (h : getScheme rawURL = Except.ok (scheme, rest)) : ∀ c ∈ rest, c ∈ rawURL :=
  getSchemeLoop_subset rawURL rawURL 0 scheme rest (fun _ hc => hc) h

/-- The text before the query as `parse` splits it holds no `?`. -/
theorem beforeQuery_clean (rest0 : Str) :
    '?' ∉ (if (strings.HasSuffix rest0 ['?'] && strings.Count rest0 '?' == 1) = true then
      rest0.dropLast else (strings.Cut rest0 '?').1) := by
  split_ifs with hfq
  · rw [Bool.and_eq_true, strings.HasSuffix_singleton, beq_iff_eq] at hfq
    obtain ⟨hl, hc⟩ := hfq
    intro hm
    have hne : rest0 ≠ [] := by intro e; rw [e] at hl; simp at hl
    have hsplit : rest0 = rest0.dropLast ++ ['?'] := by
      have := List.dropLast_append_getLast hne
      rw [List.getLast?_eq_getLast _ hne] at hl
      rw [← Option.some.inj hl]
      exact this.symm
    have hcount : strings.Count rest0 '?' = strings.Count rest0.dropLast '?' + 1 := by
      conv_lhs => rw [hsplit]
      rw [strings.Count_append]
      simp [strings.Count]
    have := strings.Count_pos_of_mem _ _ hm
    omega
  · exact strings.Cut_fst_not_mem rest0 '?'

theorem beforeQuery_subset (rest0 : Str) (c : Char)
    (h : c ∈ (if (strings.HasSuffix rest0 ['?'] && strings.Count rest0 '?' == 1) = true then
      rest0.dropLast else (strings.Cut rest0 '?').1)) : c ∈ rest0 := by
  split_ifs at h
  · exact List.mem_of_mem_dropLast h
  · exact strings.Cut_fst_subset _ _ _ h

theorem rawQuery_subset (rest0 : Str) (c : Char)
    (h : c ∈ (if (strings.HasSuffix rest0 ['?'] && strings.Count rest0 '?' == 1) = true then
      ([] : Str) else (strings.Cut rest0 '?').2.1)) : c ∈ rest0 := by
  split_ifs at h
  · simp at h
  · exact strings.Cut_snd_subset _ _ _ h

theorem HasPrefix_false_head (s : Str) (h : strings.HasPrefix s ['/'] = false) :
    s.head? ≠ some '/' := by
  intro hh
  rw [← strings.HasPrefix_singleton] at hh
  rw [hh] at h
  cases h

theorem setPath_shape (u v : URL) (p : Str) (hp : p = [] ∨ p.head? = some '/')
    (hclean : '?' ∉ p ∧ '#' ∉ p) (hb : Bytes p)
    (hu1 : u.Opaque = []) (hu2 : '#' ∉ u.RawQuery) (hu3 : u.ForceQuery = true → u.RawQuery = [])
    (hu4 : ∀ ui, u.User = some ui →
      Bytes ui.username ∧ Bytes ui.password ∧ (ui.passwordSet = false → ui.password = []))
    (h : URL.setPath u p = Except.ok v) : Shape v := by
  obtain ⟨path, rp, hpath, hrp, rfl⟩ := setPath_inv h
  refine ⟨?_, ?_, ?_, hu2, hu3, ?_, ?_, ?_, ?_, hu4⟩
  · show '?' ∉ u.Opaque ∧ '#' ∉ u.Opaque
    rw [hu1]; simp
  · show u.Opaque.head? ≠ some '/'
    rw [hu1]; simp
  · intro hne
    exact absurd hu1 hne
  · exact unescape_head p path _ hp hpath
  · exact unescape_bytes p path _ hb hpath
  · rcases hrp with e | e
    · left; exact e
    · show rp = [] ∨ rp.head? = some '/'
      rw [e]; exact hp
  · show '?' ∉ rp ∧ '#' ∉ rp
    rcases hrp with e | e
    · rw [e]; simp
    · rw [e]; exact hclean

theorem parseRest_shape (scheme rest0 : Str) (u : URL) (hs : scheme ≠ [])
    (hb : Bytes rest0) (hh : '#' ∉ rest0)
    (h : parseRest scheme rest0 false = Except.ok u) : Shape u := by
  obtain ⟨fq, rest, rq, hfq, hrest, hrq, hcases⟩ := parseRest_cases scheme rest0 u hs h
  have hq : '?' ∉ rest := by
    rw [hrest, hfq]; exact beforeQuery_clean rest0
  have hsub : ∀ c ∈ rest, c ∈ rest0 := by
    intro c hc; rw [hrest, hfq] at hc; exact beforeQuery_subset rest0 c hc
  have hqsub : ∀ c ∈ rq, c ∈ rest0 := by
    intro c hc; rw [hrq, hfq] at hc; exact rawQuery_subset rest0 c hc
  have hrh : '#' ∉ rest := fun hm => hh (hsub _ hm)
  have hqh : '#' ∉ rq := fun hm => hh (hqsub _ hm)
  have hforce : fq = true → rq = [] := by
    intro hf; rw [hrq, hf]; rfl
  have hrb : Bytes rest := fun c hc => hb c (hsub c hc)
  rcases hcases with ⟨c1, rfl⟩ | ⟨c2, user, host, hpa, hset⟩ | ⟨c1, c2, hset⟩
  · exact ⟨⟨hq, hrh⟩, HasPrefix_false_head rest c1, fun _ => ⟨rfl, rfl, rfl⟩, hqh, hforce,
      Or.inl rfl, fun c hc => by simp at hc, Or.inl rfl, by simp, fun ui hui => by cases hui⟩
  · -- authority followed by the path
    have hd : ∀ c ∈ rest.drop 2, c ∈ rest := fun c hc => List.mem_of_mem_drop hc
    refine setPath_shape _ u _ ?_ ?_ ?_ rfl hqh hforce ?_ hset
    · cases hi : strings.IndexByte (rest.drop 2) '/' with
      | none => left; rfl
      | some i => right; exact strings.IndexByte_drop _ _ _ hi
    · cases hi : strings.IndexByte (rest.drop 2) '/' with
      | none => simp
      | some i =>
        exact ⟨fun hm => hq (hd _ (List.mem_of_mem_drop hm)),
          fun hm => hrh (hd _ (List.mem_of_mem_drop hm))⟩
    · cases hi : strings.IndexByte (rest.drop 2) '/' with
      | none => intro c hc; simp at hc
      | some i => exact fun c hc => hrb c (hd _ (List.mem_of_mem_drop hc))
    · refine parseAuthority_inv _ user host ?_ hpa
      cases hi : strings.IndexByte (rest.drop 2) '/' with
      | none => exact fun c hc => hrb c (hd _ hc)
      | some i => exact fun c hc => hrb c (hd _ (List.mem_of_mem_take hc))
  · -- no authority
    refine setPath_shape _ u rest ?_ ⟨hq, hrh⟩ hrb rfl hqh hforce ?_ hset
    · right; exact (strings.HasPrefix_singleton rest '/').mp c1
    · intro ui hui; cases hui

theorem ToLower_eq_nil (s : Str) (h : strings.ToLower s = []) : s = [] := by
  unfold strings.ToLower at h
  exact List.map_eq_nil_iff.mp h

theorem parse_shape (rawURL : Str) (u : URL) (hb : Bytes rawURL) (hh : '#' ∉ rawURL)
    (hs : u.Scheme ≠ []) (h : parse rawURL false = Except.ok u) : Shape u := by
  obtain ⟨scheme, rest, hg, hsch⟩ := parse_scheme h
  have hsub := getScheme_subset rawURL scheme rest hg
  have hs' : strings.ToLower scheme ≠ [] := by rw [← hsch]; exact hs
  unfold parse at h
  split_ifs at h with h1 h2 h3
  · cases h
    exact absurd rfl hs
  · rw [hg] at h
    exact parseRest_shape _ rest u hs' (fun c hc => hb c (hsub c hc))
      (fun hm => hh (hsub _ hm)) h

/-- The fields of a URL returned by `url.Parse` with a non-empty scheme. -/
theorem Parse_shape (rawURL : Str) (u : URL) (hb : Bytes rawURL) (hs : u.Scheme ≠ [])
    (h : Parse rawURL = Except.ok u) : Shape u := by
  have hcb : Bytes (strings.Cut rawURL '#').1 :=
    fun c hc => hb c (strings.Cut_fst_subset _ _ _ hc)
  have hch : '#' ∉ (strings.Cut rawURL '#').1 := strings.Cut_fst_not_mem _ _
  unfold Parse at h
  split at h
  · cases h
  · rename_i v hv
    split_ifs at h
    · cases h
      exact parse_shape _ u hcb hch hs hv
    · obtain ⟨a, b, rfl⟩ := setFragment_inv h
      have hsv : v.Scheme ≠ [] := hs
      have sv := parse_shape _ v hcb hch hsv hv
      exact ⟨sv.1, sv.2, sv.3, sv.4, sv.5, sv.6, sv.7, sv.8, sv.9, sv.10⟩

theorem escape_eq_nil (s : Str) (m : encoding) (h : escape s m = []) : s = [] := by
  cases s with
  | nil => rfl
  | cons c s =>
    rw [escape_cons] at h
    split_ifs at h <;> simp at h

theorem authority_clean (u : URL) :
    '/' ∉ u.authority ∧ '?' ∉ u.authority ∧ '#' ∉ u.authority := by
  have hhost : ∀ x : Char, x ∉ escape u.Host encodeHost →
      x ∉ (if u.Host != [] then escape u.Host encodeHost else []) := by
    intro x hx; split_ifs
    · exact hx
    · simp
  have hui : ∀ (ui : Userinfo) (x : Char), x ≠ ':' → x ≠ '@' →
      (∀ s, x ∉ escape s encodeUserPassword) → x ∉ ui.String ++ ['@'] := by
    intro ui x h1 h2 hx hm
    rcases List.mem_append.mp hm with h | h
    · unfold Userinfo.String at h
      split_ifs at h
      · simp only [List.append_assoc, List.mem_append, List.mem_singleton] at h
        rcases h with h | h | h
        · exact hx _ h
        · exact h1 h
        · exact hx _ h
      · exact hx _ h
    · exact h2 (by simpa using h)
  unfold URL.authority
  refine ⟨?_, ?_, ?_⟩
  · intro hm
    rcases List.mem_append.mp hm with h | h
    · cases hu : u.User with
      | none => rw [hu] at h; simp at h
      | some ui =>
        rw [hu] at h
        exact hui ui '/' (by decide) (by decide)
          (fun s => slash_not_mem_escape s _ (Or.inr rfl)) h
    · exact hhost '/' (slash_not_mem_escape _ _ (Or.inl rfl)) h
  · intro hm
    rcases List.mem_append.mp hm with h | h
    · cases hu : u.User with
      | none => rw [hu] at h; simp at h
      | some ui =>
        rw [hu] at h
        exact hui ui '?' (by decide) (by decide)
          (fun s => question_not_mem_escape s _ (Or.inr (Or.inr rfl))) h
    · exact hhost '?' (question_not_mem_escape _ _ (Or.inr (Or.inl rfl))) h
  · intro hm
    rcases List.mem_append.mp hm with h | h
    · cases hu : u.User with
      | none => rw [hu] at h; simp at h
      | some ui =>
        rw [hu] at h
        exact hui ui '#' (by decide) (by decide) (fun s => hash_not_mem_escape s _) h
    · exact hhost '#' (hash_not_mem_escape _ _) h

/-- With a non-empty scheme `(*URL).String` writes either no authority, for a
URL without userinfo whose host is omitted or whose path is empty, or `//`
followed by userinfo and host. -/
theorem authorityText_cases (u : URL) (hs : u.Scheme ≠ []) :
    (u.authorityText = [] ∧ u.User = none ∧ (u.OmitHost = true ∨ u.Path = [])) ∨
      u.authorityText = '/' :: '/' :: u.authority := by
  have hsb : (u.Scheme != []) = true := by simpa using hs
  unfold URL.authorityText URL.authority
  simp only [hsb, Bool.true_or, if_true]
  by_cases h1 : (u.OmitHost && u.Host == [] && u.User.isNone) = true
  · left
    simp only [h1, if_true, true_and]
    simp only [Bool.and_eq_true, beq_iff_eq, Option.isNone_iff_eq_none] at h1
    exact ⟨h1.2, Or.inl h1.1.1⟩
  · simp only [h1, Bool.false_eq_true, if_false]
    by_cases h2 : (u.Host != [] || u.Path != [] || u.User.isSome) = true
    · right
      simp only [h2, if_true]
      rfl
    · left
      simp only [h2, Bool.false_eq_true, if_false, List.nil_append]
      simp only [Bool.or_eq_true, bne_iff_ne, ne_eq, not_or, not_not, Option.isSome_iff_exists,
        not_exists] at h2
      obtain ⟨⟨hh, hp⟩, hu⟩ := h2
      have hun : u.User = none := by
        cases hx : u.User with
        | none => rfl
        | some ui => exact absurd hx (hu ui)
      have hhb : (u.Host != []) = false := by simp [hh]
      simp [hun, hhb, hp]

theorem bind_ok_inv {ε α β : Type} {x : Except ε α} {f : α → Except ε β} {b : β}
    (h : (x >>= f) = Except.ok b) : ∃ a, x = Except.ok a ∧ f a = Except.ok b := by
  cases x with
  | error e => cases h
  | ok a => exact ⟨a, rfl, h⟩

theorem parseUserinfo_String (ui ui2 : Userinfo) (hb1 : Bytes ui.username)
    (hb2 : Bytes ui.password) (hp : ui.passwordSet = false → ui.password = [])
    (h : parseUserinfo ui.String = Except.ok ui2) : ui2 = ui := by
  have r1 := unescape_escape_ok encodeUserPassword (Or.inr rfl) ui.username hb1
  have r2 := unescape_escape_ok encodeUserPassword (Or.inr rfl) ui.password hb2
  unfold parseUserinfo at h
  by_cases hv : (!validUserinfo ui.String) = true
  · rw [if_pos hv] at h
    cases h
  · rw [if_neg hv] at h
    cases hset : ui.passwordSet with
    | false =>
      have hstr : ui.String = escape ui.username encodeUserPassword := by
        simp [Userinfo.String, hset]
      have hc : (!strings.Contains ui.String [':']) = true := by
        rw [Bool.not_eq_true', Bool.eq_false_iff, ne_eq, strings.Contains_singleton, hstr]
        exact colon_not_mem_escape _
      rw [if_pos hc] at h
      obtain ⟨a, ha, h⟩ := bind_ok_inv h
      rw [hstr, r1] at ha
      cases ha
      cases h
      cases ui with
      | mk username password passwordSet =>
        simp only at hset hp ⊢
        rw [hset, hp hset]
    | true =>
      have hstr : ui.String = escape ui.username encodeUserPassword ++
          ':' :: escape ui.password encodeUserPassword := by
        simp [Userinfo.String, hset]
      have hc : ¬ (!strings.Contains ui.String [':']) = true := by
        rw [Bool.not_eq_true', Bool.not_eq_false, strings.Contains_singleton, hstr]
        simp
      have hcut : strings.Cut ui.String ':' =
          (escape ui.username encodeUserPassword, escape ui.password encodeUserPassword,
            true) := by
        rw [hstr]
        exact strings.Cut_append _ _ _ (colon_not_mem_escape _)
      rw [if_neg hc] at h
      obtain ⟨a, ha, h⟩ := bind_ok_inv h
      obtain ⟨b, hb, h⟩ := bind_ok_inv h
      rw [hcut, r1] at ha
      rw [hcut, r2] at hb
      cases ha
      cases hb
      cases h
      cases ui with
      | mk username password passwordSet =>
        simp only at hset ⊢
        rw [hset]

/-- Parsing the authority text that `(*URL).String` writes gives back the
userinfo. -/
theorem parseAuthority_authority (u : URL) (user : Option Userinfo) (host : Str)
    (hu : ∀ ui, u.User = some ui →
      Bytes ui.username ∧ Bytes ui.password ∧ (ui.passwordSet = false → ui.password = []))
    (h : parseAuthority u.authority = Except.ok (user, host)) : user = u.User := by
  have hhost : '@' ∉ (if u.Host != [] then escape u.Host encodeHost else []) := by
    split_ifs
    · exact at_not_mem_escape _ _ (Or.inl rfl)
    · simp
  unfold URL.authority at h
  generalize (if u.Host != [] then escape u.Host encodeHost else []) = hostText at h hhost
  unfold parseAuthority at h
  cases hx : u.User with
  | none =>
    rw [hx] at h
    simp only [List.nil_append] at h
    rw [strings.LastIndexByte_of_not_mem _ _ hhost] at h
    obtain ⟨a, _, h⟩ := bind_ok_inv h
    cases h
    rfl
  | some ui =>
    rw [hx] at h
    have ha : ui.String ++ ['@'] ++ hostText = ui.String ++ '@' :: hostText := by simp
    simp only [ha] at h
    rw [strings.LastIndexByte_append _ _ _ hhost] at h
    obtain ⟨a, _, h⟩ := bind_ok_inv h
    obtain ⟨ui2, hp, h⟩ := bind_ok_inv h
    cases h
    rw [List.take_left' rfl] at hp
    obtain ⟨b1, b2, b3⟩ := hu ui hx
    rw [parseUserinfo_String ui ui2 b1 b2 b3 hp]

/-- The path text that `(*URL).String` writes decodes to `Path`, is empty or
starts with `/`, and holds neither `?` nor `#`. -/
theorem EscapedPath_spec (u : URL) (su : Shape u) :
    unescape u.EscapedPath encodePath = Except.ok u.Path ∧
    (u.EscapedPath = [] ∨ u.EscapedPath.head? = some '/') ∧
    '?' ∉ u.EscapedPath ∧ '#' ∉ u.EscapedPath := by
  unfold URL.EscapedPath
  split_ifs with h1 h2
  · simp only [Bool.and_eq_true] at h1
    obtain ⟨_, h1⟩ := h1
    refine ⟨?_, su.rawpath_head, su.rawpath_clean.1, su.rawpath_clean.2⟩
    cases hu : unescape u.RawPath encodePath with
    | error e => rw [hu] at h1; cases h1
    | ok p =>
      rw [hu] at h1
      have : p = u.Path := by simpa using h1
      rw [this]
  · exfalso
    have hp : u.Path = ['*'] := by simpa using h2
    rcases su.path_head with h | h
    · rw [hp] at h; cases h
    · rw [hp] at h; simp at h
  · refine ⟨unescape_escape_ok _ (Or.inl rfl) _ su.path_bytes, ?_,
      question_not_mem_escape _ _ (Or.inl rfl), hash_not_mem_escape _ _⟩
    rcases su.path_head with h | h
    · left; rw [h]; rfl
    · right
      cases hp : u.Path with
      | nil => rw [hp] at h; simp at h
      | cons c t =>
        rw [hp] at h
        have hc : c = '/' := by simpa using h
        subst hc
        rw [escape_cons]
        rfl

theorem String_rootless (u : URL) (hs : u.Scheme ≠ []) (hf : u.Fragment = [])
    (ho : u.Opaque ≠ []) : u.String = u.Scheme ++ ':' :: (u.Opaque ++ u.queryText) := by
  have hsb : (u.Scheme != []) = true := by simpa using hs
  have hob : (u.Opaque != []) = true := by simpa using ho
  have hfb : (u.Fragment != []) = false := by simp [hf]
  unfold URL.String URL.queryText
  simp only [hsb, hob, hfb, if_true, Bool.false_eq_true, if_false]
  split_ifs <;> simp

theorem String_hier (u : URL) (hs : u.Scheme ≠ []) (hf : u.Fragment = [])
    (ho : u.Opaque = []) (hp : u.EscapedPath = [] ∨ u.EscapedPath.head? = some '/') :
    u.String = u.Scheme ++ ':' :: ((u.authorityText ++ u.EscapedPath) ++ u.queryText) := by
  have hsb : (u.Scheme != []) = true := by simpa using hs
  have hob : (u.Opaque != []) = false := by simp [ho]
  have hfb : (u.Fragment != []) = false := by simp [hf]
  have hfix : (u.EscapedPath != [] && u.EscapedPath.head? != some '/' && u.Host != []) =
      false := by
    rcases hp with h | h
    · simp [h]
    · simp [h]
  have hlen : ((u.Scheme ++ [':'] ++ u.authorityText).length == 0) = false := by
    simp
  unfold URL.String URL.queryText
  simp only [hsb, hob, hfb, hfix, hlen, if_true, Bool.false_eq_true, if_false, Bool.false_and]
  split_ifs <;> simp

/-- How `parse` splits the query off a text made of a part without `?`
followed by the query that `(*URL).String` writes. -/
theorem splitQuery (body rq : Str) (fq : Bool) (hq : '?' ∉ body) (hf : fq = true → rq = []) :
    (strings.HasSuffix (body ++ (if fq || rq != [] then '?' :: rq else [])) ['?'] &&
      strings.Count (body ++ (if fq || rq != [] then '?' :: rq else [])) '?' == 1) = fq ∧
    (if fq then (body ++ (if fq || rq != [] then '?' :: rq else [])).dropLast
      else (strings.Cut (body ++ (if fq || rq != [] then '?' :: rq else [])) '?').1) = body ∧
    (if fq then [] else
      (strings.Cut (body ++ (if fq || rq != [] then '?' :: rq else [])) '?').2.1) = rq := by
  have hcb := strings.Count_of_not_mem body '?' hq
  cases fq with
  | true =>
    have hr := hf rfl
    subst hr
    simp only [Bool.true_or, if_true]
    refine ⟨?_, ?_, trivial⟩
    · rw [Bool.and_eq_true, strings.HasSuffix_singleton, beq_iff_eq, strings.Count_append, hcb]
      exact ⟨List.getLast?_concat _, by simp [strings.Count]⟩
    · exact List.dropLast_concat
  | false =>
    simp only [Bool.false_or, Bool.false_eq_true, if_false]
    by_cases hr : rq = []
    · subst hr
      simp only [bne_self_eq_false, Bool.false_eq_true, if_false, List.append_nil]
      refine ⟨?_, ?_, ?_⟩
      · rw [Bool.and_eq_false_iff]
        left
        rw [Bool.eq_false_iff, ne_eq, strings.HasSuffix_singleton]
        intro hl
        exact hq (List.mem_of_getLast?_eq_some hl)
      · rw [strings.Cut_of_not_mem body '?' hq]
      · rw [strings.Cut_of_not_mem body '?' hq]
    · have hrb : (rq != []) = true := by simpa using hr
      simp only [hrb, if_true]
      refine ⟨?_, ?_, ?_⟩
      · rw [Bool.eq_false_iff]
        intro hc
        rw [Bool.and_eq_true, strings.HasSuffix_singleton, beq_iff_eq, strings.Count_append,
          hcb] at hc
        obtain ⟨hl, hcount⟩ := hc
        have hl2 : rq.getLast? = some '?' := by
          rw [List.getLast?_append] at hl
          cases hx : rq.getLast? with
          | none => rw [List.getLast?_eq_none_iff] at hx; exact absurd hx hr
          | some y =>
            rw [List.getLast?_cons, hx] at hl
            simpa using hl
        have hm : '?' ∈ rq := List.mem_of_getLast?_eq_some hl2
        have := strings.Count_pos_of_mem rq '?' hm
        have hc2 : strings.Count ('?' :: rq) '?' = strings.Count rq '?' + 1 := by
          simp [strings.Count]
        omega
      · rw [strings.Cut_append body rq '?' hq]
      · rw [strings.Cut_append body rq '?' hq]

theorem Parse_of_no_fragment (s : Str) (v : URL) (hh : '#' ∉ s)
    (h : Parse s = Except.ok v) : parse s false = Except.ok v := by
  unfold Parse at h
  rw [strings.Cut_of_not_mem s '#' hh] at h
  dsimp only at h
  split at h
  · cases h
  · rename_i u hu
    have hv : u = v := by simpa using h
    rw [← hv]
    exact hu

theorem parse_http (x : Str) (v : URL) (sch : Str)
    (hs : sch = "http".toList ∨ sch = "https".toList)
    (h : parse (sch ++ ':' :: x) false = Except.ok v) : parseRest sch x false = Except.ok v := by
  unfold parse at h
  split_ifs at h with h1 h2 h3
  · rcases hs with e | e <;> (subst e; simp at h3)
  · rcases hs with e | e
    · subst e
      have hg : getScheme ("http".toList ++ ':' :: x) = Except.ok ("http".toList, x) := by
        simp [getScheme, getSchemeLoop, pure, Except.pure]
      rw [hg] at h
      exact h
    · subst e
      have hg : getScheme ("https".toList ++ ':' :: x) = Except.ok ("https".toList, x) := by
        simp [getScheme, getSchemeLoop, pure, Except.pure]
      rw [hg] at h
      exact h

/-- How `url.Parse` reads a string made of the scheme `http` or `https`, a
colon, a text without `?` and `#`, and the query that `(*URL).String` writes
for `fq` and `rq`. -/
theorem Parse_written (sch body rq : Str) (fq : Bool) (v : URL)
    (hs : sch = "http".toList ∨ sch = "https".toList)
    (hq : '?' ∉ body) (hh : '#' ∉ body) (hrq : '#' ∉ rq) (hf : fq = true → rq = [])
    (h : Parse (sch ++ ':' :: (body ++ (if fq || rq != [] then '?' :: rq else []))) =
      Except.ok v) :
    (strings.HasPrefix body ['/'] = false ∧
        v = { Scheme := sch, Opaque := body, ForceQuery := fq, RawQuery := rq }) ∨
      (strings.HasPrefix body "//".toList = true ∧
        ∃ user host,
          parseAuthority
            (match strings.IndexByte (body.drop 2) '/' with
              | some i => (body.drop 2).take i
              | none => body.drop 2) = Except.ok (user, host) ∧
          URL.setPath { Scheme := sch, User := user, Host := host, ForceQuery := fq, RawQuery := rq }
            (match strings.IndexByte (body.drop 2) '/' with
              | some i => (body.drop 2).drop i
              | none => []) = Except.ok v) ∨
      (strings.HasPrefix body ['/'] = true ∧ strings.HasPrefix body "//".toList = false ∧
        URL.setPath { Scheme := sch, OmitHost := true, ForceQuery := fq, RawQuery := rq }
          body = Except.ok v) := by
  have hsne : sch ≠ [] := by rcases hs with e | e <;> (subst e; decide)
  have hhash : '#' ∉ sch ++ ':' :: (body ++ (if fq || rq != [] then '?' :: rq else [])) := by
    intro hm
    rcases List.mem_append.mp hm with h1 | h1
    · rcases hs with e | e <;> (subst e; simp at h1)
    · rcases List.mem_cons.mp h1 with h2 | h2
      · cases h2
      · rcases List.mem_append.mp h2 with h3 | h3
        · exact hh h3
        · split_ifs at h3
          · rcases List.mem_cons.mp h3 with h4 | h4
            · cases h4
            · exact hrq h4
          · simp at h3
  have h1 := parse_http _ v sch hs (Parse_of_no_fragment _ v hhash h)
  obtain ⟨fq2, rest2, rq2, e1, e2, e3, hc⟩ := parseRest_cases sch _ v hsne h1
  obtain ⟨s1, s2, s3⟩ := splitQuery body rq fq hq hf
  have efq : fq2 = fq := by rw [e1, s1]
  subst efq
  have erest : rest2 = body := by rw [e2]; exact s2
  have erq : rq2 = rq := by rw [e3]; exact s3
  subst erest erq
  exact hc

/-- Reading back the string written for a URL `w` with scheme `http` or
`https`, no fragment and fields as `url.Parse` produces them gives the path,
query and userinfo of `w`, unless no authority is written and the path text
starts with `//`. -/
theorem Parse_String (w v : URL)
    (hsch : w.Scheme = "http".toList ∨ w.Scheme = "https".toList)
    (hfr : w.Fragment = []) (sw : Shape w)
    (hpath : w.OmitHost = true → strings.HasPrefix w.EscapedPath "//".toList = false)
    (hv : Parse w.String = Except.ok v) :
    v.Path = w.Path ∧ v.RawQuery = w.RawQuery ∧ v.ForceQuery = w.ForceQuery ∧
      v.User = w.User := by
  have hs : w.Scheme ≠ [] := by rcases hsch with e | e <;> (rw [e]; decide)
  obtain ⟨hP1, hP2, hP3, hP4⟩ := EscapedPath_spec w sw
  by_cases ho : w.Opaque = []
  · -- hierarchical form
    rw [String_hier w hs hfr ho hP2] at hv
    obtain ⟨a1, a2, a3⟩ := authority_clean w
    rcases authorityText_cases w hs with ⟨hA, hun, hcase⟩ | hA
    · -- no authority written
      rw [hA, List.nil_append] at hv
      unfold URL.queryText at hv
      rcases Parse_written _ _ _ _ v hsch hP3 hP4 sw.query_clean sw.force_query hv with
        ⟨c1, rfl⟩ | ⟨c2, -⟩ | ⟨c1, c2, hset⟩
      · -- the path text is empty
        have hPnil : w.EscapedPath = [] := by
          rcases hP2 with e | e
          · exact e
          · rw [← strings.HasPrefix_singleton, c1] at e; cases e
        rw [hPnil] at hP1
        have : w.Path = [] := by
          have h0 : unescape [] encodePath = Except.ok ([] : Str) := rfl
          rw [h0] at hP1
          exact (Except.ok.inj hP1).symm
        exact ⟨this.symm, rfl, rfl, hun.symm⟩
      · exfalso
        rcases hcase with hom | hpe
        · rw [hpath hom] at c2; cases c2
        · rw [hpe] at hP1
          rw [unescape_eq_nil _ _ hP1] at c2
          cases c2
      · obtain ⟨path, rp, hpath2, -, rfl⟩ := setPath_inv hset
        rw [hP1] at hpath2
        exact ⟨(Except.ok.inj hpath2).symm, rfl, rfl, hun.symm⟩
    · -- `//`, userinfo and host written
      rw [hA] at hv
      unfold URL.queryText at hv
      have hbq : '?' ∉ '/' :: '/' :: w.authority ++ w.EscapedPath := by
        intro hm
        rcases List.mem_append.mp hm with h | h
        · rcases List.mem_cons.mp h with h | h
          · cases h
          · rcases List.mem_cons.mp h with h | h
            · cases h
            · exact a2 h
        · exact hP3 h
      have hbh : '#' ∉ '/' :: '/' :: w.authority ++ w.EscapedPath := by
        intro hm
        rcases List.mem_append.mp hm with h | h
        · rcases List.mem_cons.mp h with h | h
          · cases h
          · rcases List.mem_cons.mp h with h | h
            · cases h
            · exact a3 h
        · exact hP4 h
      have hsplit :
          (match strings.IndexByte (w.authority ++ w.EscapedPath) '/' with
            | some i => (w.authority ++ w.EscapedPath).take i
            | none => w.authority ++ w.EscapedPath) = w.authority ∧
          (match strings.IndexByte (w.authority ++ w.EscapedPath) '/' with
            | some i => (w.authority ++ w.EscapedPath).drop i
            | none => []) = w.EscapedPath := by
        rcases hP2 with e | e
        · rw [e, List.append_nil, strings.IndexByte_of_not_mem _ _ a1]
          exact ⟨rfl, rfl⟩
        · cases hx : w.EscapedPath with
          | nil => rw [hx] at e; simp at e
          | cons c t =>
            rw [hx] at e
            have hc : c = '/' := by simpa using e
            subst hc
            rw [strings.IndexByte_append _ _ _ a1]
            exact ⟨List.take_left' rfl, List.drop_left' rfl⟩
      rcases Parse_written _ _ _ _ v hsch hbq hbh sw.query_clean sw.force_query hv with
        ⟨c1, -⟩ | ⟨-, user, host, hpa, hset⟩ | ⟨-, c2, -⟩
      · simp [strings.HasPrefix] at c1
      · have hd : List.drop 2 ('/' :: '/' :: w.authority ++ w.EscapedPath) =
            w.authority ++ w.EscapedPath := rfl
        rw [hd, hsplit.1] at hpa
        rw [hd, hsplit.2] at hset
        obtain ⟨path, rp, hpath2, -, rfl⟩ := setPath_inv hset
        rw [hP1] at hpath2
        exact ⟨(Except.ok.inj hpath2).symm, rfl, rfl,
          parseAuthority_authority w user host sw.user_bytes hpa⟩
      · simp [strings.HasPrefix] at c2
  · -- rootless form
    rw [String_rootless w hs hfr ho] at hv
    unfold URL.queryText at hv
    obtain ⟨f1, f2, f3⟩ := sw.rootless_fields ho
    rcases Parse_written _ _ _ _ v hsch sw.rootless_clean.1 sw.rootless_clean.2 sw.query_clean
        sw.force_query hv with ⟨-, rfl⟩ | ⟨c2, -⟩ | ⟨c1, -, -⟩
    · exact ⟨f1.symm, rfl, rfl, f3.symm⟩
    · exfalso
      have := sw.rootless_head
      cases hx : w.Opaque with
      | nil => exact ho hx
      | cons c t =>
        rw [hx] at c2 this
        cases t with
        | nil => simp [strings.HasPrefix] at c2
        | cons d t2 =>
          simp [strings.HasPrefix] at c2
          exact this (by simp [c2.1])
    · exfalso
      exact sw.rootless_head ((strings.HasPrefix_singleton _ _).mp c1)

end url

namespace api

open url

/-- The table of `TestCanonicalizeURL`. -/
theorem canonicalizeURL_test_table :
    canonicalizeURL "https://EXAMPLE.com/".toList = ("https://example.com".toList, none) ∧
    canonicalizeURL "HTTP://example.com:80/path/".toList =
      ("http://example.com/path".toList, none) ∧
    canonicalizeURL "https://example.com:443".toList = ("https://example.com".toList, none) ∧
    canonicalizeURL "ftp://invalid.com".toList = ([], some url.Error.invalidScheme) ∧
    canonicalizeURL "https://example.com#fragment".toList =
      ("https://example.com".toList, none) := by
  decide

/-- C3 (evaluation at the failing input): `canonicalizeURL` accepts
`http://[::1]:80/` and returns `http://[`, on which `canonicalizeURL` fails
with "missing ']' in host": the result is not a fixed point. -/
theorem canonicalizeURL_ipv6_not_fixed :
    canonicalizeURL "http://[::1]:80/".toList = ("http://[".toList, none) ∧
    canonicalizeURL "http://[".toList = ([], some url.Error.missingBracket) := by
  decide

/-- C4 (evaluation at the failing input): `https://[2001:db8::1]:443` and
`https://[2001:db8::1]` differ only in the presence of the default port, both
are accepted, and the canonical strings differ. -/
theorem canonicalizeURL_ipv6_default_port :
    canonicalizeURL "https://[2001:db8::1]:443".toList = ("https://[2001".toList, none) ∧
    canonicalizeURL "https://[2001:db8::1]".toList = ("https://[2001:db8::1]".toList, none) ∧
    canonicalizeURL "https://[2001:db8::1]:443".toList ≠
      canonicalizeURL "https://[2001:db8::1]".toList := by
  decide

/-- C5: `canonicalizeURL` returns an error exactly when `url.Parse` fails or
the scheme written in the raw string, lower-cased, is neither `http` nor
`https`; with an error the returned string is empty; `ftp://invalid.com` is
rejected. -/
theorem canonicalizeURL_error_iff (raw : Str) :
    ((canonicalizeURL raw).2 ≠ none ↔
      ((∃ e, url.Parse raw = Except.error e) ∨
        (strings.ToLower (rawScheme raw) ≠ "http".toList ∧
          strings.ToLower (rawScheme raw) ≠ "https".toList))) ∧
    ((canonicalizeURL raw).2 ≠ none → (canonicalizeURL raw).1 = []) ∧
    (canonicalizeURL "ftp://invalid.com".toList).2 ≠ none := by
  refine ⟨?_, ?_, by decide⟩
  · unfold canonicalizeURL
    cases hp : url.Parse raw with
    | error e => simp
    | ok u =>
      have hs := Parse_scheme hp
      rw [← hs]
      by_cases hc : u.Scheme ≠ "http".toList ∧ u.Scheme ≠ "https".toList
      · have hb : (u.Scheme != "http".toList && u.Scheme != "https".toList) = true := by
          rw [Bool.and_eq_true, bne_iff_ne, bne_iff_ne]; exact hc
        simp only [hb, if_true]
        exact ⟨fun _ => Or.inr hc, fun _ => by simp⟩
      · have hb : (u.Scheme != "http".toList && u.Scheme != "https".toList) = false := by
          rw [Bool.eq_false_iff, ne_eq, Bool.and_eq_true, bne_iff_ne, bne_iff_ne]; exact hc
        simp only [hb]
        constructor
        · intro h; exact absurd rfl h
        · rintro (⟨e, he⟩ | h)
          · cases he
          · exact absurd h hc
  · unfold canonicalizeURL
    cases hp : url.Parse raw with
    | error e => simp
    | ok u =>
      simp only
      split_ifs <;> simp

theorem canonicalizeURLWith_ToLower (raw : Str) :
    canonicalizeURLWith strings.ToLower raw = canonicalizeURL raw := rfl

theorem canonicalFieldsWith_fields (lowerHost : Str → Str) (u : URL) :
    (canonicalFieldsWith lowerHost u).Scheme = strings.ToLower u.Scheme ∧
    (canonicalFieldsWith lowerHost u).Opaque = u.Opaque ∧
    (canonicalFieldsWith lowerHost u).User = u.User ∧
    (canonicalFieldsWith lowerHost u).Path = strings.TrimRight u.Path '/' ∧
    (canonicalFieldsWith lowerHost u).RawPath = u.RawPath ∧
    (canonicalFieldsWith lowerHost u).OmitHost = u.OmitHost ∧
    (canonicalFieldsWith lowerHost u).ForceQuery = u.ForceQuery ∧
    (canonicalFieldsWith lowerHost u).RawQuery = u.RawQuery ∧
    (canonicalFieldsWith lowerHost u).Fragment = [] := by
  unfold canonicalFieldsWith
  dsimp only
  split_ifs <;> exact ⟨rfl, rfl, rfl, rfl, rfl, rfl, rfl, rfl, rfl⟩

theorem canonicalFieldsWith_shape (lowerHost : Str → Str) (u : URL) (su : Shape u) :
    Shape (canonicalFieldsWith lowerHost u) := by
  obtain ⟨-, f2, f3, f4, f5, -, f7, f8, -⟩ := canonicalFieldsWith_fields lowerHost u
  refine ⟨?_, ?_, ?_, ?_, ?_, ?_, ?_, ?_, ?_, ?_⟩
  · rw [f2]; exact su.rootless_clean
  · rw [f2]; exact su.rootless_head
  · rw [f2, f3, f4, f5]
    intro ho
    obtain ⟨g1, g2, g3⟩ := su.rootless_fields ho
    rw [g1]
    exact ⟨rfl, g2, g3⟩
  · rw [f8]; exact su.query_clean
  · rw [f7, f8]; exact su.force_query
  · rw [f4]
    by_cases ht : strings.TrimRight u.Path '/' = []
    · left; exact ht
    · right
      rw [strings.TrimRight_head _ _ ht]
      rcases su.path_head with h | h
      · rw [h] at ht; exact absurd rfl ht
      · exact h
  · rw [f4]
    exact fun c hc => su.path_bytes c (strings.TrimRight_subset _ _ _ hc)
  · rw [f5]; exact su.rawpath_head
  · rw [f5]; exact su.rawpath_clean
  · rw [f3]; exact su.user_bytes

/-- C6 (counterexample): for `http://a.com/a//` the parsed path is `/a//`,
the returned string is `http://a.com/a`, and its path `/a` is not the parsed
path with a single trailing `/` removed (`/a/`). -/
theorem canonicalizeURL_strips_every_slash :
    ∃ u v, url.Parse "http://a.com/a//".toList = Except.ok u ∧
      canonicalizeURL "http://a.com/a//".toList = ("http://a.com/a".toList, none) ∧
      url.Parse (canonicalizeURL "http://a.com/a//".toList).1 = Except.ok v ∧
      u.Path = "/a//".toList ∧
      v.Path = "/a".toList ∧
      v.Path ≠ strings.TrimSuffix u.Path '/' := by
  refine ⟨_, _, rfl, ?_, rfl, ?_, ?_, ?_⟩ <;> decide

/-- The path of a URL written without authority can be read back as a host:
`http:/%2Fevil.com/a/` has no host and the path `//evil.com/a/`; the returned
string is `http://evil.com/a`, which reads back with host `evil.com` and path
`/a`. -/
theorem canonicalizeURL_path_read_as_host :
    ∃ u v, url.Parse "http:/%2Fevil.com/a/".toList = Except.ok u ∧
      canonicalizeURL "http:/%2Fevil.com/a/".toList = ("http://evil.com/a".toList, none) ∧
      url.Parse (canonicalizeURL "http:/%2Fevil.com/a/".toList).1 = Except.ok v ∧
      u.Host = [] ∧ u.OmitHost = true ∧ u.Path = "//evil.com/a/".toList ∧
      v.Host = "evil.com".toList ∧ v.Path = "/a".toList := by
  refine ⟨_, _, rfl, ?_, rfl, ?_, ?_, ?_, ?_, ?_⟩ <;> decide

/-- C6 (amended): for every raw URL (a byte string) that `canonicalizeURL`
accepts and whose returned string `url.Parse` reads again, the path of the
returned string is the parsed path with every trailing `/` removed (it no
longer ends in `/` and the parsed path is it followed by `/` only), and its
query, forced-query flag and userinfo are the parsed ones.  Left out are the
URLs written without authority whose path text starts with `//`.  The
lower-casing of the host is arbitrary (`lowerHost`). -/
theorem canonicalizeURL_path (lowerHost : Str → Str) (raw : Str) (u v : URL)
    (hb : url.Bytes raw)
    (hp : url.Parse raw = Except.ok u)
    (hs : u.Scheme = "http".toList ∨ u.Scheme = "https".toList)
    (hv : url.Parse (canonicalizeURLWith lowerHost raw).1 = Except.ok v)
    (hpath : u.OmitHost = true →
      strings.HasPrefix (canonicalFieldsWith lowerHost u).EscapedPath "//".toList = false) :
    (canonicalizeURLWith lowerHost raw).2 = none ∧
    v.Path = strings.TrimRight u.Path '/' ∧
    (∃ k, u.Path = v.Path ++ List.replicate k '/') ∧
    v.Path.getLast? ≠ some '/' ∧
    v.RawQuery = u.RawQuery ∧
    v.ForceQuery = u.ForceQuery ∧
    v.User = u.User := by
  have hne : u.Scheme ≠ [] := by rcases hs with e | e <;> (rw [e]; decide)
  have su := Parse_shape raw u hb hne hp
  have sw := canonicalFieldsWith_shape lowerHost u su
  obtain ⟨f1, -, f3, f4, -, f6, f7, f8, f9⟩ := canonicalFieldsWith_fields lowerHost u
  have hret : canonicalizeURLWith lowerHost raw =
      ((canonicalFieldsWith lowerHost u).String, none) := by
    unfold canonicalizeURLWith
    rw [hp]
    rcases hs with e | e <;> simp [e]
  have hsw : (canonicalFieldsWith lowerHost u).Scheme = "http".toList ∨
      (canonicalFieldsWith lowerHost u).Scheme = "https".toList := by
    rw [f1]
    rcases hs with e | e
    · left; rw [e]; decide
    · right; rw [e]; decide
  rw [hret] at hv
  obtain ⟨r1, r2, r3, r4⟩ := Parse_String (canonicalFieldsWith lowerHost u) v hsw f9 sw
    (fun ho => hpath (f6 ▸ ho)) hv
  have hpv : v.Path = strings.TrimRight u.Path '/' := by rw [r1, f4]
  obtain ⟨k, hk, hlast⟩ := strings.TrimRight_spec u.Path '/'
  refine ⟨by rw [hret], hpv, ⟨k, by rw [hpv]; exact hk⟩, by rw [hpv]; exact hlast,
    by rw [r2, f8], by rw [r3, f7], by rw [r4, f3]⟩

/-- C6 (witness): `canonicalizeURL_path` at `http://u:p@a.com/a//?q=1/` for
the ASCII lower-casing of `canonicalizeURL`. -/
theorem canonicalizeURL_path_witness :
    ∃ u v, url.Parse "http://u:p@a.com/a//?q=1/".toList = Except.ok u ∧
      url.Parse (canonicalizeURL "http://u:p@a.com/a//?q=1/".toList).1 = Except.ok v ∧
      (canonicalizeURL "http://u:p@a.com/a//?q=1/".toList).2 = none ∧
      v.Path = strings.TrimRight u.Path '/' ∧
      (∃ k, u.Path = v.Path ++ List.replicate k '/') ∧
      v.Path.getLast? ≠ some '/' ∧
      v.RawQuery = u.RawQuery ∧
      v.ForceQuery = u.ForceQuery ∧
      v.User = u.User :=
  ⟨_, _, rfl, rfl,
    canonicalizeURL_path strings.ToLower "http://u:p@a.com/a//?q=1/".toList _ _ (by decide) rfl
      (Or.inl (by decide)) rfl (fun h => absurd h (by decide))⟩

end api

namespace checker

open storage

/-- C2 (evaluation at the failing input): for a target whose URL parses,
after a 500 response followed by a non-retryable transport error, `checkOne`
returns and the result handed to `SaveCheckResult` carries both the stale
status 500 and a non-empty error text, so it violates the invariant. -/
theorem checkOne_stale_status :
    ∃ run, checkOne targetH get500ThenReset 0 = some run ∧
      run.host = "h.example".toList ∧
      run.state.result.StatusCode = 500 ∧
      run.state.result.Error ≠ [] ∧
      ¬ CheckResultOk run.state.result := by
  refine ⟨_, rfl, ?_, ?_, ?_, ?_⟩ <;> decide

/-- While the mutex is held `checkOne` makes exactly `attemptsExpected get`
attempts, sleeping 200 ms between the first and second and 400 ms between the
second and third and at no other time, and when the last attempt is an HTTP
response the persisted status is that response's status.  Outcomes 500, 500,
200 give 3 requests, 600 ms of sleep and status 200; a 404 gives 1 request,
no sleep and status 404. -/
theorem checkOneLocked_attempts (get : Nat → Outcome) (now : Nat) :
    (checkOneLocked get now).trace = traceExpected (attemptsExpected get) ∧
    requestCount (checkOneLocked get now).trace = attemptsExpected get ∧
    (∀ statusCode latency,
      get (attemptsExpected get - 1) = Outcome.response statusCode latency →
      (checkOneLocked get now).result.StatusCode = statusCode) ∧
    (requestCount (checkOneLocked get500500200 now).trace = 3 ∧
      sleepTotal (checkOneLocked get500500200 now).trace = 600 ∧
      (checkOneLocked get500500200 now).result.StatusCode = 200) ∧
    (requestCount (checkOneLocked get404 now).trace = 1 ∧
      sleepTotal (checkOneLocked get404 now).trace = 0 ∧
      (checkOneLocked get404 now).result.StatusCode = 404 ∧
      (checkOneLocked get404 now).result.Error = []) := by
  rw [← and_assoc, ← and_assoc]
  refine ⟨?_, ?_, ?_⟩
  rotate_left
  · simp [checkOneLocked, attemptLoop, get500500200, requestCount, sleepTotal, isRetryableError]
  · simp [checkOneLocked, attemptLoop, get404, requestCount, sleepTotal, isRetryableError]
  rw [and_assoc]
  unfold checkOneLocked attemptsExpected
  cases h0 : get 0 with
  | response s0 l0 =>
    by_cases c0 : s0 < 500
    · have c0n : ¬ (s0 ≥ 500) := by omega
      simp [attemptLoop, h0, Outcome.isFinal, c0, c0n, traceExpected, requestCount]
    · have c0p : s0 ≥ 500 := by omega
      cases h1 : get 1 with
      | response s1 l1 =>
        by_cases c1 : s1 < 500
        · have c1n : ¬ (s1 ≥ 500) := by omega
          simp [attemptLoop, h0, h1, Outcome.isFinal, c0, c0p, c1, c1n, traceExpected,
            requestCount]
        · have c1p : s1 ≥ 500 := by omega
          cases h2 : get 2 <;>
          simp [attemptLoop, h0, h1, h2, Outcome.isFinal, c0, c0p, c1, c1p, traceExpected,
            requestCount]
      | failure e1 l1 =>
        cases r1 : isRetryableError e1
        · simp [attemptLoop, h0, h1, Outcome.isFinal, c0, c0p, r1, traceExpected,
            requestCount]
        · cases h2 : get 2 <;>
          simp [attemptLoop, h0, h1, h2, Outcome.isFinal, c0, c0p, r1, traceExpected,
            requestCount]
  | failure e0 l0 =>
    cases r0 : isRetryableError e0
    · simp [attemptLoop, h0, Outcome.isFinal, r0, traceExpected, requestCount]
    · cases h1 : get 1 with
      | response s1 l1 =>
        by_cases c1 : s1 < 500
        · have c1n : ¬ (s1 ≥ 500) := by omega
          simp [attemptLoop, h0, h1, Outcome.isFinal, r0, c1, c1n, traceExpected,
            requestCount]
        · have c1p : s1 ≥ 500 := by omega
          cases h2 : get 2 <;>
          simp [attemptLoop, h0, h1, h2, Outcome.isFinal, r0, c1, c1p, traceExpected,
            requestCount]
      | failure e1 l1 =>
        cases r1 : isRetryableError e1
        · simp [attemptLoop, h0, h1, Outcome.isFinal, r0, r1, traceExpected, requestCount]
        · cases h2 : get 2 <;>
          simp [attemptLoop, h0, h1, h2, Outcome.isFinal, r0, r1, traceExpected,
            requestCount]

/-- For a target whose stored URL parses, `checkOne` returns, takes the mutex
of the URL's host and probes as `checkOneLocked` does: it makes
`attemptsExpected get` attempts with the sleeps of `traceExpected`, and a
final HTTP response gives the persisted status. -/
theorem checkOne_of_parsed (t : Target) (get : Nat → Outcome) (now : Nat) (u : url.URL)
    (hp : url.Parse t.URL = Except.ok u) :
    ∃ run, checkOne t get now = some run ∧ run.host = u.Host ∧
      run.state.trace = traceExpected (attemptsExpected get) ∧
      requestCount run.state.trace = attemptsExpected get ∧
      (∀ statusCode latency,
        get (attemptsExpected get - 1) = Outcome.response statusCode latency →
        run.state.result.StatusCode = statusCode) := by
  refine ⟨{ host := u.Host, state := checkOneLocked get now }, ?_, rfl, ?_⟩
  · unfold checkOne
    rw [hp]
  · have h := checkOneLocked_attempts get now
    exact ⟨h.1, h.2.1, h.2.2.1⟩

/-- C10 (evaluation at the failing input): `canonicalizeURL` accepts
`http://[::1]:80/` and returns `http://[`; for the target stored with that
URL `url.Parse` fails, so `checkOne` panics at `u.Host` whatever the outcomes
would be: it makes no attempt and saves no result, while the claim asks for
`attemptsExpected get` attempts, which is at least one. -/
theorem checkOne_unparsed_url :
    api.canonicalizeURL "http://[::1]:80/".toList = (targetBracket.URL, none) ∧
    url.Parse targetBracket.URL = Except.error url.Error.missingBracket ∧
    (∀ get now, checkOne targetBracket get now = none) ∧
    (∀ get, 1 ≤ attemptsExpected get) := by
  refine ⟨by decide, rfl, fun get now => rfl, fun get => ?_⟩
  unfold attemptsExpected
  split_ifs <;> omega

theorem listWhere_all (r : TargetRow) : listWhere [] none r = true := by
  simp [listWhere]

/-- The queue of a tick is the first 10000 rows of `targets` in
`(created_at, id)` order. -/
theorem checkAll_eq (db : DB) :
    checkAll db =
      some (((db.targets.insertionSort fun a b => rowLE a b = true).take 10000).map
        TargetRow.toTarget) := by
  have hfilter : db.targets.filter (listWhere [] none) = db.targets :=
    List.filter_eq_self.mpr fun r _ => listWhere_all r
  have hmap : ∀ l : List TargetRow,
      (l.map fun r => ({ ID := r.id, URL := r.url, CreatedAt := r.created_at } : Target)) =
        l.map TargetRow.toTarget := fun _ => rfl
  unfold checkAll ListTargets selectTargets
  simp only [hfilter, hmap]
  generalize (db.targets.insertionSort fun a b => rowLE a b = true) = sorted
  by_cases hlen : sorted.length > 10000
  · have hitems : ((sorted.take (10000 + 1)).map TargetRow.toTarget).length > 10000 := by
      rw [List.length_map, List.length_take]; omega
    rw [if_pos hitems]
    have htake : ((sorted.take (10000 + 1)).map TargetRow.toTarget).take 10000 =
        (sorted.take 10000).map TargetRow.toTarget := by
      rw [← List.map_take, List.take_take]
      rfl
    rw [htake]
    cases ((sorted.take (10000 + 1)).map TargetRow.toTarget).get? 10000 <;> rfl
  · have hitems : ¬ ((sorted.take (10000 + 1)).map TargetRow.toTarget).length > 10000 := by
      rw [List.length_map, List.length_take]; omega
    rw [if_neg hitems]
    simp only
    rw [List.take_of_length_le (by omega), List.take_of_length_le (by omega)]

/-- A tick never queues more than 10000 targets. -/
theorem checkAll_length_le (db : DB) (queue : List Target) (h : checkAll db = some queue) :
    queue.length ≤ 10000 := by
  rw [checkAll_eq] at h
  cases h
  rw [List.length_map, List.length_take]
  omega

/-- With at most 10000 registered targets the queue is a rearrangement of the
registered targets: each is queued once. -/
theorem checkAll_perm (db : DB) (hlen : db.targets.length ≤ 10000) :
    ∃ queue, checkAll db = some queue ∧
      List.Perm queue (db.targets.map TargetRow.toTarget) := by
  refine ⟨_, checkAll_eq db, ?_⟩
  rw [List.take_of_length_le (by rw [List.length_insertionSort]; exact hlen)]
  exact (List.perm_insertionSort _ _).map _

/-- With more than 10000 registered targets some registered target is not
queued. -/
theorem checkAll_misses (db : DB) (hid : (db.targets.map fun r => r.id).Nodup)
    (hlen : db.targets.length > 10000) :
    ∃ queue, checkAll db = some queue ∧ queue.length = 10000 ∧
      ∃ r ∈ db.targets, r.toTarget ∉ queue := by
  refine ⟨_, checkAll_eq db, ?_, ?_⟩
  · rw [List.length_map, List.length_take, List.length_insertionSort]
    omega
  · by_contra hall
    have hsub : db.targets.map TargetRow.toTarget ⊆
        ((db.targets.insertionSort fun a b => rowLE a b = true).take 10000).map
          TargetRow.toTarget := by
      intro t ht
      obtain ⟨r, hr, rfl⟩ := List.mem_map.mp ht
      by_contra hnot
      exact hall ⟨r, hr, hnot⟩
    have hnodup : (db.targets.map TargetRow.toTarget).Nodup := by
      have h2 : (db.targets.map TargetRow.toTarget).map (fun t => t.ID) =
          db.targets.map fun r => r.id := by
        rw [List.map_map]; rfl
      exact List.Nodup.of_map _ (h2 ▸ hid)
    have hle := (List.subperm_of_subset hnodup hsub).length_le
    rw [List.length_map, List.length_map, List.length_take] at hle
    omega

theorem digit_inj (a b : Nat) (h : digit a = digit b) : a % 10 = b % 10 := by
  have key : ∀ m < 10, ∀ n < 10, Char.ofNat (48 + m) = Char.ofNat (48 + n) → m = n := by
    decide
  exact key _ (Nat.mod_lt _ (by norm_num)) _ (Nat.mod_lt _ (by norm_num)) h

theorem decimal5_inj (i j : Nat) (hi : i < 100000) (hj : j < 100000)
    (h : decimal5 i = decimal5 j) : i = j := by
  unfold decimal5 at h
  simp only [List.cons.injEq, and_true] at h
  obtain ⟨h4, h3, h2, h1, h0⟩ := h
  have e4 := digit_inj _ _ h4
  have e3 := digit_inj _ _ h3
  have e2 := digit_inj _ _ h2
  have e1 := digit_inj _ _ h1
  have e0 := digit_inj _ _ h0
  omega

theorem manyRows_nodup (n : Nat) (hn : n ≤ 100000) :
    ((manyRows n).map fun r => r.id).Nodup ∧ ((manyRows n).map fun r => r.url).Nodup := by
  have hinj : ∀ (pre : Str), ∀ x ∈ List.range n, ∀ y ∈ List.range n,
      pre ++ decimal5 x = pre ++ decimal5 y → x = y := by
    intro pre x hx y hy h
    rw [List.mem_range] at hx hy
    exact decimal5_inj x y (by omega) (by omega) (List.append_cancel_left h)
  unfold manyRows
  rw [List.map_map, List.map_map]
  exact ⟨List.Nodup.map_on (hinj _) (List.nodup_range _),
    List.Nodup.map_on (hinj _) (List.nodup_range _)⟩

theorem manyRows_length (n : Nat) : (manyRows n).length = n := by
  unfold manyRows
  rw [List.length_map, List.length_range]

theorem dbMany_targets : dbMany.targets = manyRows 10001 := by
  simp only [dbMany]

/-- The store `dbMany` satisfies the schema constraints. -/
theorem dbMany_valid : dbMany.Valid :=
  ⟨dbMany_targets ▸ (manyRows_nodup 10001 (by norm_num)).1,
    dbMany_targets ▸ (manyRows_nodup 10001 (by norm_num)).2, List.nodup_nil⟩

/-- C11 (evaluation at the failing input): for the store `dbMany`, which
satisfies the schema constraints and holds 10001 registered targets, the work
queue that `checkAll` builds holds exactly 10000 targets, so a registered
target is missing from it. -/
theorem checkAll_drops_targets :
    dbMany.Valid ∧ dbMany.targets.length = 10001 ∧
    ∃ queue, checkAll dbMany = some queue ∧ queue.length = 10000 ∧
      ∃ r ∈ dbMany.targets, r.toTarget ∉ queue := by
  have hlen : dbMany.targets.length = 10001 := by
    rw [dbMany_targets, manyRows_length]
  exact ⟨dbMany_valid, hlen,
    checkAll_misses dbMany dbMany_valid.id_unique (by rw [hlen]; norm_num)⟩

end checker
